import Mathlib

/-!
Verification of the planar region segmentation and boundary-counting engine
(`src/D12/main.ts`): flood-fill segmentation of a character grid into maximal
4-connected same-symbol regions, per-region perimeter (exposed edge count) and
side count (maximal straight boundary runs, grouped with a union-find), and the
two aggregate totals.

The TypeScript code is shallowly embedded: JavaScript numbers become `Int`
(all arithmetic here is small-integer), the string coordinate keys `"x,y"`
become the coordinate pairs themselves (the key encoding is injective, so a
`Set`/`Record` keyed by `"x,y"` strings has exactly the semantics of a set of
or map on coordinate pairs), `Set.has`/membership tests become decidable list
membership on the same underlying lists, mutable record maps become functions
updated with `Function.update`, and the two unbounded loops (the BFS `while`
and the union-find `find` walk) take explicit fuel, with theorems below showing
the chosen fuel is always sufficient.  `undefined` resulting from an
out-of-bounds array read is modelled by `Option`.
-/

/-- A grid cell, the TS `{ x, y }` object (JS numbers are modelled as `Int`). -/
abbrev Cell : Type := Int × Int

/-- A region: the TS `{ cells: Cell[]; char: string }`.  The `char` is an
`Option Char` because it is read from the grid with an array access that can in
principle yield `undefined` (for a ragged grid row); on a well-formed grid it
is always `some`. -/
structure Region where
  cells : List Cell
  char : Option Char
  deriving DecidableEq, Repr

/-- The result of `parseInput`: the grid with its dimensions
(`{ grid, height, width }`). -/
structure GridData where
  grid : List (List Char)
  height : Nat
  width : Nat
  deriving DecidableEq, Repr

/-- JS `String.prototype.trim`: drop whitespace from both ends. -/
def jsTrim (s : List Char) : List Char :=
  ((s.dropWhile Char.isWhitespace).reverse.dropWhile Char.isWhitespace).reverse

/-- JS `split("\n")`: split into the (always nonempty) list of lines. -/
def splitNL : List Char → List (List Char)
  | [] => [[]]
  | c :: rest =>
    match splitNL rest with
    | [] => [[c]]
    | line :: lines =>
      if c = '\n' then [] :: line :: lines else (c :: line) :: lines

/-- `parseInput`: trim the input, split into lines, split each line into its
characters (JS `line.split("")`); `height` is the number of lines and `width`
the length of line 0.  No validation is performed. -/
def parseInput (input : String) : GridData :=
  let grid := splitNL (jsTrim input.toList)
  ⟨grid, grid.length, (grid.headD []).length⟩

/-- The four neighbour offsets, in source order: up, right, down, left. -/
def directions : List (Int × Int) := [(0, -1), (1, 0), (0, 1), (-1, 0)]

/-- `inBounds(x, y)`: `x >= 0 && x < width && y >= 0 && y < height`. -/
def inBounds (g : GridData) (x y : Int) : Prop :=
  0 ≤ x ∧ x < (g.width : Int) ∧ 0 ≤ y ∧ y < (g.height : Int)

instance (g : GridData) (x y : Int) : Decidable (inBounds g x y) := by
  unfold inBounds; infer_instance

/-- The grid read `grid[y][x]`, `none` when either index is out of range
(a JS array read yielding `undefined`). -/
def gridAt (g : GridData) (x y : Int) : Option Char :=
  if 0 ≤ x ∧ 0 ≤ y then (g.grid.get? y.toNat).bind (fun row => row.get? x.toNat)
  else none

/-- A well-formed grid: the recorded dimensions match the data and every row
has the same length (the spec's rectangularity invariant). -/
def WellFormed (g : GridData) : Prop :=
  g.height = g.grid.length ∧ ∀ row ∈ g.grid, row.length = g.width

instance (g : GridData) : Decidable (WellFormed g) := by
  unfold WellFormed; infer_instance

/-! ### Union-find (`createUnionFind`) -/

/-- The union-find state: the `parent` and `size` records, modelled as total
functions over the element type (the TS records are keyed by the element
strings; entries never written keep their initial value and are never read). -/
structure UnionFind (α : Type) where
  parent : α → α
  size : α → Nat

/-- `createUnionFind`: every element is its own parent with size 1. -/
def createUnionFind (α : Type) : UnionFind α :=
  ⟨fun x => x, fun _ => 1⟩

/-- The `find` loop with path compression:
`while (p !== parent[p]) { parent[p] = parent[parent[p]]; p = parent[p] }`.
Each iteration rewrites `parent[p]` to the grandparent and moves `p` there.
The TS loop is unbounded; here it takes fuel, and `findAux_spec` below shows
that fuel `|elements|` always suffices to reach the root. -/
def findAux [DecidableEq α] : Nat → (α → α) → α → (α → α) × α
  | 0, parent, p => (parent, p)
  | fuel + 1, parent, p =>
    if parent p = p then (parent, p)
    else
      let gp := parent (parent p)
      findAux fuel (Function.update parent p gp) gp

/-- `union(a, b)`: find both roots (each `find` compresses paths), then link
the smaller root under the larger, adding the sizes. -/
def ufUnion [DecidableEq α] (fuel : Nat) (uf : UnionFind α) (a b : α) :
    UnionFind α :=
  let fa := findAux fuel uf.parent a
  let fb := findAux fuel fa.1 b
  let rootA := fa.2
  let rootB := fb.2
  if rootA = rootB then ⟨fb.1, uf.size⟩
  else if uf.size rootA < uf.size rootB then
    ⟨Function.update fb.1 rootA rootB,
      Function.update uf.size rootB (uf.size rootB + uf.size rootA)⟩
  else
    ⟨Function.update fb.1 rootB rootA,
      Function.update uf.size rootA (uf.size rootA + uf.size rootB)⟩

/-- `elements.map(find)`: run `find` on each element in order, threading the
path-compression updates, and collect the returned roots. -/
def rootsAux [DecidableEq α] (fuel : Nat) : (α → α) → List α → (α → α) × List α
  | parent, [] => (parent, [])
  | parent, e :: es =>
    let fe := findAux fuel parent e
    let rest := rootsAux fuel fe.1 es
    (rest.1, fe.2 :: rest.2)

/-- `countComponents`: the number of distinct roots of the elements
(`new Set(elements.map(find)).size`). -/
def countComponents [DecidableEq α] (fuel : Nat) (uf : UnionFind α)
    (elements : List α) : Nat :=
  ((rootsAux fuel uf.parent elements).2).dedup.length

/-! ### Perimeter and sides -/

/-- `computePerimeter`: for each cell of the region and each of the four
directions, count the direction when the neighbour is out of bounds or not a
member of the region's cell set. -/
def computePerimeter (g : GridData) (region : Region) : Nat :=
  (region.cells.map (fun c =>
    (directions.filter (fun d =>
      decide (¬ inBounds g (c.1 + d.1) (c.2 + d.2) ∨
        (c.1 + d.1, c.2 + d.2) ∉ region.cells))).length)).sum

/-- `groupEdgeSegments`: build a union-find over the edge positions and union
each position with its already-present neighbour along the axis perpendicular
to the edge normal (vertically for left/right edges, horizontally for
top/bottom edges); the component count is the number of sides. -/
def groupEdgeSegments (edgePositions : List Cell) (isVertical : Bool) : Nat :=
  if edgePositions.isEmpty then 0
  else
    let fuel := edgePositions.length
    let uf :=
      edgePositions.foldl (fun uf pos =>
        if isVertical then
          let ufUp := if (pos.1, pos.2 - 1) ∈ edgePositions then
              ufUnion fuel uf pos (pos.1, pos.2 - 1) else uf
          if (pos.1, pos.2 + 1) ∈ edgePositions then
            ufUnion fuel ufUp pos (pos.1, pos.2 + 1) else ufUp
        else
          let ufLeft := if (pos.1 - 1, pos.2) ∈ edgePositions then
              ufUnion fuel uf pos (pos.1 - 1, pos.2) else uf
          if (pos.1 + 1, pos.2) ∈ edgePositions then
            ufUnion fuel ufLeft pos (pos.1 + 1, pos.2) else ufLeft)
        (createUnionFind Cell)
    countComponents fuel uf edgePositions

/-- The left-edge positions of `computeSides`: cells whose left neighbour is
not in the region's cell set. -/
def leftEdges (region : Region) : List Cell :=
  region.cells.filter (fun c => decide ((c.1 - 1, c.2) ∉ region.cells))

/-- The right-edge positions: cells whose right neighbour is absent. -/
def rightEdges (region : Region) : List Cell :=
  region.cells.filter (fun c => decide ((c.1 + 1, c.2) ∉ region.cells))

/-- The top-edge positions: cells whose upper neighbour is absent. -/
def topEdges (region : Region) : List Cell :=
  region.cells.filter (fun c => decide ((c.1, c.2 - 1) ∉ region.cells))

/-- The bottom-edge positions: cells whose lower neighbour is absent. -/
def bottomEdges (region : Region) : List Cell :=
  region.cells.filter (fun c => decide ((c.1, c.2 + 1) ∉ region.cells))

/-- `computeSides`: group each orientation's edge positions into continuous
sides and add the four counts. -/
def computeSides (region : Region) : Nat :=
  groupEdgeSegments (leftEdges region) true +
  groupEdgeSegments (rightEdges region) true +
  groupEdgeSegments (topEdges region) false +
  groupEdgeSegments (bottomEdges region) false

/-! ### Flood-fill segmentation (`findRegions`) -/

/-- One neighbour check of the BFS body: if the neighbour is in bounds, not
yet visited, and holds the region's character, mark it visited and append it
to both the cell list and the queue. -/
def bfsStep (g : GridData) (ch : Option Char) (c : Cell)
    (st : Finset Cell × List Cell × List Cell) (d : Int × Int) :
    Finset Cell × List Cell × List Cell :=
  let n : Cell := (c.1 + d.1, c.2 + d.2)
  if inBounds g n.1 n.2 ∧ n ∉ st.1 ∧ gridAt g n.1 n.2 = ch then
    (insert n st.1, st.2.1 ++ [n], st.2.2 ++ [n])
  else st

/-- The BFS `while (queue.length)` loop: pop the front cell, run the four
neighbour checks, repeat.  The loop takes fuel; `bfsVisit_fuel` below shows
the fuel used by `findRegions` is always sufficient. -/
def bfsVisit (g : GridData) (ch : Option Char) :
    Nat → Finset Cell → List Cell → List Cell →
    Finset Cell × List Cell × List Cell
  | 0, visited, cells, queue => (visited, cells, queue)
  | _ + 1, visited, cells, [] => (visited, cells, [])
  | fuel + 1, visited, cells, c :: queue =>
    let st := directions.foldl (bfsStep g ch c) (visited, cells, queue)
    bfsVisit g ch fuel st.1 st.2.1 st.2.2

/-- The BFS fuel used by `findRegions`: enough for any queue arising from the
grid (`bfsVisit` consumes one fuel per processed queue entry). -/
def bfsFuel (g : GridData) : Nat := g.width * g.height + 1

/-- The row-major scan order of the outer `findRegions` loops. -/
def rowMajor (g : GridData) : List Cell :=
  (List.range g.height).flatMap (fun (y : Nat) =>
    (List.range g.width).map (fun (x : Nat) => ((x : Int), (y : Int))))

/-- The outer loop of `findRegions`: scan cells in row-major order; for each
unvisited cell, mark it visited and flood-fill a new region from it. -/
def findRegionsAux (g : GridData) (fuel : Nat) :
    List Cell → Finset Cell → List Region → List Region
  | [], _, regions => regions
  | c :: rest, visited, regions =>
    if c ∈ visited then findRegionsAux g fuel rest visited regions
    else
      let ch := gridAt g c.1 c.2
      let st := bfsVisit g ch fuel (insert c visited) [c] [c]
      findRegionsAux g fuel rest st.1 (regions ++ [⟨st.2.1, ch⟩])

/-- `findRegions` with the BFS fuel as a parameter (the TS loop is unbounded;
`findRegions_fuel_irrelevant` shows any fuel at least `bfsFuel` gives the same
result, i.e. the loop terminates within the bound). -/
def findRegionsWith (g : GridData) (fuel : Nat) : List Region :=
  findRegionsAux g fuel (rowMajor g) ∅ []

/-- `findRegions()`: flood-fill the whole grid into regions. -/
def findRegions (g : GridData) : List Region :=
  findRegionsWith g (bfsFuel g)

/-! ### Aggregation (`part1`, `part2`) -/

/-- `part1`: accumulate `area * perimeter` over all regions. -/
def part1 (g : GridData) : Nat :=
  (findRegions g).foldl
    (fun total region => total + region.cells.length * computePerimeter g region) 0

/-- `part2`: accumulate `area * sides` over all regions. -/
def part2 (g : GridData) : Nat :=
  (findRegions g).foldl
    (fun total region => total + region.cells.length * computeSides region) 0

/-! ### Specification-side notions

The mathematical notions the claims speak about: connected components of a
boundary-cell set under adjacency along the axis perpendicular to the edge
normal, 4-adjacency of cells, the set of in-bounds cells, and the union-find
forest invariant used to verify `findAux`/`ufUnion`/`countComponents`. -/

/-- Adjacency along a vertical boundary line: same `x`, `y` differing by 1. -/
def vertAdjacent (a b : Cell) : Prop :=
  a.1 = b.1 ∧ (a.2 = b.2 + 1 ∨ b.2 = a.2 + 1)

/-- Adjacency along a horizontal boundary line: same `y`, `x` differing by 1. -/
def horizAdjacent (a b : Cell) : Prop :=
  a.2 = b.2 ∧ (a.1 = b.1 + 1 ∨ b.1 = a.1 + 1)

/-- The adjacency along the axis perpendicular to the edge normal: vertical
for left/right edges, horizontal for top/bottom edges. -/
def perpAdjacent (isVertical : Bool) : Cell → Cell → Prop :=
  fun a b => if isVertical then vertAdjacent a b else horizAdjacent a b

/-- 4-adjacency of two cells (the four grid neighbours). -/
def cellAdjacent (a b : Cell) : Prop :=
  (a.1 = b.1 ∧ (a.2 = b.2 + 1 ∨ b.2 = a.2 + 1)) ∨
  (a.2 = b.2 ∧ (a.1 = b.1 + 1 ∨ b.1 = a.1 + 1))

instance (a b : Cell) : Decidable (vertAdjacent a b) := by
  unfold vertAdjacent; infer_instance

instance (a b : Cell) : Decidable (horizAdjacent a b) := by
  unfold horizAdjacent; infer_instance

instance (a b : Cell) : Decidable (cellAdjacent a b) := by
  unfold cellAdjacent; infer_instance

/-- The setoid on the elements of `s` generated by an adjacency relation:
two elements are equivalent iff connected by a chain of adjacencies inside
`s`. -/
def adjSetoid {α : Type} (s : Finset α) (adj : α → α → Prop) :
    Setoid {x // x ∈ s} :=
  ⟨fun a b => Relation.EqvGen (fun u v : {x // x ∈ s} => adj u.1 v.1) a b,
    Relation.EqvGen.is_equivalence _⟩

/-- The number of connected components of `s` under the adjacency `adj`:
the number of equivalence classes of chains-of-adjacencies connectivity. -/
noncomputable def numComponents {α : Type} (s : Finset α)
    (adj : α → α → Prop) : ℕ :=
  Nat.card (Quotient (adjSetoid s adj))

/-- The number of unordered pairs of distinct cells of `s` that are
4-neighbours of each other (counted as ordered pairs, halved by symmetry). -/
def internalAdjacentPairs (s : Finset Cell) : ℕ :=
  ((s ×ˢ s).filter (fun p : Cell × Cell => cellAdjacent p.1 p.2)).card / 2

/-- The set of in-bounds cells of the grid. -/
def allCells (g : GridData) : Finset Cell :=
  ((Finset.range g.width) ×ˢ (Finset.range g.height)).image
    (fun p => ((p.1 : Int), (p.2 : Int)))

/-- The cells of an axis-aligned `w × h` rectangle anchored at `(x0, y0)`,
as a list (column-major enumeration). -/
def rectCells (x0 y0 : Int) (w h : ℕ) : List Cell :=
  (List.range w).flatMap (fun (i : Nat) =>
    (List.range h).map (fun (j : Nat) => (x0 + (i : Int), y0 + (j : Int))))

/-- The same rectangle as a finite set. -/
def rectF (x0 y0 : Int) (w h : ℕ) : Finset Cell :=
  ((Finset.range w) ×ˢ (Finset.range h)).image
    (fun p => (x0 + (p.1 : Int), y0 + (p.2 : Int)))

/-- The cells of a U-shaped (upward-opening) region: a `w × h` rectangle at
the origin minus the notch `[a1, a2) × [0, hN)` cut from its top edge. -/
def uShapeCells (w h a1 a2 hN : ℕ) : List Cell :=
  (rectCells 0 0 w h).filter (fun c =>
    decide (¬((a1 : Int) ≤ c.1 ∧ c.1 < (a2 : Int) ∧ c.2 < (hN : Int))))

/-- The union-find forest invariant: `ρ` names the root of every element's
parent chain.  `parent` maps the element set into itself and is the identity
outside it, every element reaches `ρ` of itself by iterating `parent`, each
`ρ`-value is a fixpoint of `parent`, and `ρ` is constant along parent links.
Under this invariant `ρ` is exactly the root function of the forest, and the
equivalence `ρ x = ρ y` is the union-find's same-component relation. -/
structure UFInv (es : List α) (parent : α → α) (ρ : α → α) : Prop where
  mapsTo : ∀ x ∈ es, parent x ∈ es
  outside : ∀ x, x ∉ es → parent x = x ∧ ρ x = x
  reach : ∀ x, ∃ n, parent^[n] x = ρ x
  rootFix : ∀ x, parent (ρ x) = ρ x
  compat : ∀ x, ρ (parent x) = ρ x

/-! ## Theorems -/

/-! ### C5: behaviour on malformed input -/

theorem splitNL_ne_nil (l : List Char) : splitNL l ≠ [] := by
  cases l with
  | nil => simp [splitNL]
  | cons c rest =>
    simp only [splitNL]
    cases h : splitNL rest with
    | nil => simp
    | cons line lines =>
      by_cases hc : c = '\n' <;> simp [hc]

/-- Claim C5 (counterexample): on the malformed input `"ab\nc"` (unequal row
lengths) the parser does not fail: it returns a ragged grid whose recorded
width (2, from row 0) disagrees with row 1's length, and the program goes on
to silently produce the metric totals (16 and 16) from it.  Likewise the empty
input parses, to a 1×0 grid, instead of failing. -/
theorem parseInput_malformed_silent :
    parseInput "ab\nc" = ⟨[['a', 'b'], ['c']], 2, 2⟩ ∧
    ¬ (∀ row ∈ (parseInput "ab\nc").grid,
        row.length = (parseInput "ab\nc").width) ∧
    part1 (parseInput "ab\nc") = 16 ∧ part2 (parseInput "ab\nc") = 16 ∧
    parseInput "" = ⟨[[]], 1, 0⟩ := by
  refine ⟨by decide, by decide, ?_, ?_, by decide⟩ <;> decide

/-- Claim C5 (amended): the program performs no input validation at all:
`parseInput` is total and returns a grid for every input, including malformed
ones — unequal row lengths are kept ragged (width is taken from row 0) and the
empty input yields a 1×0 grid — and the counting pipeline then runs on that
grid as-is, so malformed input produces silently wrong counts rather than a
fast failure. -/
theorem parseInput_total_no_validation :
    (∀ input : String,
      (parseInput input).grid ≠ [] ∧
      (parseInput input).height = (parseInput input).grid.length ∧
      (parseInput input).width = ((parseInput input).grid.headD []).length) ∧
    parseInput "ab\nc" = ⟨[['a', 'b'], ['c']], 2, 2⟩ ∧
    parseInput "" = ⟨[[]], 1, 0⟩ := by
  refine ⟨fun input => ⟨?_, rfl, rfl⟩, by decide, by decide⟩
  exact splitNL_ne_nil _

/-! ### C4: the two reported metrics -/

theorem foldl_add_map (f : α → Nat) (l : List α) (a : Nat) :
    l.foldl (fun t x => t + f x) a = a + (l.map f).sum := by
  induction l generalizing a with
  | nil => simp
  | cons x xs ih => simp [ih, Nat.add_assoc]

/-- Claim C4: metric A is the sum over all regions of `area × perimeter` and
metric B the sum over all regions of `area × sides`, where a region's area is
the number of its cells. -/
theorem aggregator_metrics (g : GridData) :
    part1 g =
      ((findRegions g).map
        (fun r => r.cells.length * computePerimeter g r)).sum ∧
    part2 g =
      ((findRegions g).map (fun r => r.cells.length * computeSides r)).sum := by
  constructor <;> simp [part1, part2, foldl_add_map]

/-! ### Union-find correctness

`UFInv es parent ρ` is preserved by every operation, `findAux` returns `ρ` of
its argument within fuel `|es|`, and the class equivalence `ρ x = ρ y` evolves
exactly by merging the classes of the two union arguments. -/

theorem UFInv.rho_iter {es : List α} {parent ρ : α → α}
    (h : UFInv es parent ρ) (x : α) (k : ℕ) : ρ (parent^[k] x) = ρ x := by
  induction k with
  | zero => rfl
  | succ k ih => rw [Function.iterate_succ_apply', h.compat, ih]


theorem UFInv.rho_idem {es : List α} {parent ρ : α → α}
    (h : UFInv es parent ρ) (x : α) : ρ (ρ x) = ρ x := by
  obtain ⟨n, hn⟩ := h.reach x
  rw [← hn, h.rho_iter]
  exact hn.symm

theorem UFInv.iter_mem {es : List α} {parent ρ : α → α}
    (h : UFInv es parent ρ) {x : α} (hx : x ∈ es) (k : ℕ) :
    parent^[k] x ∈ es := by
  induction k with
  | zero => exact hx
  | succ k ih => rw [Function.iterate_succ_apply']; exact h.mapsTo _ ih

theorem UFInv.rho_mem {es : List α} {parent ρ : α → α}
    (h : UFInv es parent ρ) {x : α} (hx : x ∈ es) : ρ x ∈ es := by
  obtain ⟨n, hn⟩ := h.reach x
  rw [← hn]; exact h.iter_mem hx n

theorem UFInv.rho_of_fix {es : List α} {parent ρ : α → α}
    (h : UFInv es parent ρ) {x : α} (hfix : parent x = x) : ρ x = x := by
  obtain ⟨n, hn⟩ := h.reach x
  rw [Function.iterate_fixed hfix] at hn
  exact hn.symm

theorem UFInv.no_cycle {es : List α} {parent ρ : α → α}
    (h : UFInv es parent ρ) {x : α} {k : ℕ} (hk : 1 ≤ k)
    (hcyc : parent^[k] x = x) : ρ x = x := by
  obtain ⟨n, hn⟩ := h.reach x
  have hq : ∀ q : ℕ, parent^[q * k] x = x := by
    intro q
    induction q with
    | zero => simp
    | succ q ih =>
      rw [Nat.succ_mul, Function.iterate_add_apply, hcyc, ih]
  have h1 : parent^[n * k] x = x := hq n
  have h2 : parent^[n * k] x = ρ x := by
    have hle : n ≤ n * k := Nat.le_mul_of_pos_right n hk
    calc parent^[n * k] x = parent^[(n * k - n) + n] x := by
          rw [Nat.sub_add_cancel hle]
      _ = parent^[n * k - n] (parent^[n] x) := Function.iterate_add_apply ..
      _ = parent^[n * k - n] (ρ x) := by rw [hn]
      _ = ρ x := Function.iterate_fixed (h.rootFix x) _
  exact h2.symm.trans h1

theorem UFInv.chain_ne {es : List α} {parent ρ : α → α}
    (h : UFInv es parent ρ) {x : α} (hx : parent x ≠ x) {k : ℕ}
    (hk : 1 ≤ k) : parent^[k] x ≠ x := by
  intro hc
  have hroot := h.no_cycle hk hc
  exact hx (by conv_lhs => rw [← hroot, h.rootFix x, hroot])

theorem update_iterate_eq {α : Type} [DecidableEq α] {parent : α → α}
    {p v y : α} {m : ℕ} (hch : ∀ k < m, parent^[k] y ≠ p) :
    (Function.update parent p v)^[m] y = parent^[m] y := by
  induction m with
  | zero => rfl
  | succ m ih =>
    rw [Function.iterate_succ_apply', Function.iterate_succ_apply',
      ih (fun k hk => hch k (by omega)),
      Function.update_noteq (hch m (by omega))]

theorem compress_reach {α : Type} {es : List α} {parent ρ : α → α}
    [DecidableEq α] (h : UFInv es parent ρ) {p : α} (hnr : parent p ≠ p) :
    ∀ n x, parent^[n] x = ρ x →
      ∃ m, (Function.update parent p (parent (parent p)))^[m] x = ρ x := by
  intro n
  induction n using Nat.strong_induction_on with
  | _ n ih =>
    intro x hx
    match n, hx with
    | 0, hx => exact ⟨0, hx⟩
    | n + 1, hx =>
      by_cases hxp : p = x
      · subst hxp
        match n, hx with
        | 0, hx =>
          have h1 : parent p = ρ p := by rwa [Function.iterate_one] at hx
          refine ⟨1, ?_⟩
          rw [Function.iterate_one, Function.update_same, h1, h.rootFix]
        | n' + 1, hx =>
          have h2 : parent^[2] p = parent (parent p) := by
            rw [Function.iterate_succ_apply', Function.iterate_one]
          have hsplit : parent^[n'] (parent (parent p)) = ρ p := by
            rw [← h2, ← Function.iterate_add_apply]
            exact hx
          have hrgp : ρ (parent (parent p)) = ρ p := by
            rw [← h2, h.rho_iter]
          obtain ⟨m, hm⟩ := ih n' (by omega) _ (hrgp ▸ hsplit)
          refine ⟨m + 1, ?_⟩
          rw [Function.iterate_succ_apply, Function.update_same, hm, hrgp]
      · have hstep : parent^[n] (parent x) = ρ x := by
          rw [← Function.iterate_succ_apply]; exact hx
        have hrpx : ρ (parent x) = ρ x := h.compat x
        obtain ⟨m, hm⟩ := ih n (by omega) _ (hrpx ▸ hstep)
        refine ⟨m + 1, ?_⟩
        rw [Function.iterate_succ_apply,
          Function.update_noteq (fun hc => hxp hc.symm), hm, hrpx]

theorem UFInv.compress {α : Type} {es : List α} {parent ρ : α → α}
    [DecidableEq α] (h : UFInv es parent ρ) {p : α} (hp : p ∈ es)
    (hnr : parent p ≠ p) :
    UFInv es (Function.update parent p (parent (parent p))) ρ := by
  have hrne : ∀ x, ρ x ≠ p := by
    intro x hc
    exact hnr (by conv_lhs => rw [← hc, h.rootFix, hc])
  refine ⟨?_, ?_, ?_, ?_, ?_⟩
  · intro x hx
    by_cases hxp : x = p
    · subst hxp; rw [Function.update_same]
      exact h.mapsTo _ (h.mapsTo _ hp)
    · rw [Function.update_noteq hxp]; exact h.mapsTo _ hx
  · intro x hx
    have hxp : x ≠ p := fun hc => hx (hc ▸ hp)
    rw [Function.update_noteq hxp]
    exact h.outside x hx
  · intro x
    obtain ⟨n, hn⟩ := h.reach x
    exact compress_reach h hnr n x hn
  · intro x
    rw [Function.update_noteq (hrne x)]
    exact h.rootFix x
  · intro x
    by_cases hxp : x = p
    · subst hxp; rw [Function.update_same, h.compat, h.compat]
    · rw [Function.update_noteq hxp]; exact h.compat x

theorem UFInv.steps_le {α : Type} {es : List α} {parent ρ : α → α}
    [DecidableEq α] (h : UFInv es parent ρ) {x : α} (hx : x ∈ es) :
    ∃ n ≤ es.length, parent^[n] x = ρ x := by
  have hex := h.reach x
  set n₀ := Nat.find hex with hn₀def
  have hspec : parent^[n₀] x = ρ x := Nat.find_spec hex
  have hmin : ∀ k < n₀, parent^[k] x ≠ ρ x := fun k hk => Nat.find_min hex hk
  have hinj : ∀ i j, i < j → j ≤ n₀ → parent^[i] x ≠ parent^[j] x := by
    intro i j hij hj heq
    have hstep : parent^[(n₀ - j) + i] x = ρ x := by
      rw [Function.iterate_add_apply, heq, ← Function.iterate_add_apply,
        Nat.sub_add_cancel hj]
      exact hspec
    exact hmin _ (by omega) hstep
  have hinj2 : Set.InjOn (fun k => parent^[k] x) ↑(Finset.range (n₀ + 1)) := by
    intro i hi j hj hij
    simp only [Finset.coe_range, Set.mem_Iio] at hi hj
    by_contra hne
    rcases Nat.lt_or_ge i j with hlt | hge
    · exact hinj i j hlt (by omega) hij
    · exact hinj j i (by omega) (by omega) hij.symm
  have hsub : (Finset.range (n₀ + 1)).image (fun k => parent^[k] x) ⊆
      es.toFinset := by
    intro y hy
    obtain ⟨k, _, hk⟩ := Finset.mem_image.mp hy
    rw [← hk, List.mem_toFinset]
    exact h.iter_mem hx k
  have hcard : n₀ + 1 ≤ es.length := by
    have h1 := Finset.card_le_card hsub
    rw [Finset.card_image_of_injOn hinj2, Finset.card_range,
      List.card_toFinset] at h1
    exact h1.trans (List.Sublist.length_le es.dedup_sublist)
  exact ⟨n₀, by omega, hspec⟩

theorem findAux_spec {α : Type} {es : List α} {parent ρ : α → α}
    [DecidableEq α] (h : UFInv es parent ρ) {x : α} {fuel : ℕ} (hx : x ∈ es)
    (hfuel : ∃ n ≤ fuel, parent^[n] x = ρ x) :
    (findAux fuel parent x).2 = ρ x ∧ UFInv es (findAux fuel parent x).1 ρ := by
  induction fuel generalizing parent x with
  | zero =>
    obtain ⟨n, hn0, hn⟩ := hfuel
    have hz : n = 0 := Nat.le_zero.mp hn0
    subst hz
    exact ⟨hn, h⟩
  | succ fuel ih =>
    by_cases hr : parent x = x
    · have hfix := h.rho_of_fix hr
      simp only [findAux, if_pos hr]
      exact ⟨hfix.symm, h⟩
    · have hInv' := h.compress hx hr
      have hgp_mem : parent (parent x) ∈ es := h.mapsTo _ (h.mapsTo _ hx)
      have h2 : parent^[2] x = parent (parent x) := by
        rw [Function.iterate_succ_apply', Function.iterate_one]
      have hrgp : ρ (parent (parent x)) = ρ x := by rw [← h2, h.rho_iter]
      obtain ⟨n, hnle, hn⟩ := hfuel
      have hn1 : 1 ≤ n := by
        rcases Nat.eq_zero_or_pos n with h0 | h1
        · subst h0
          have hx0 : x = ρ x := hn
          exact absurd (by rw [hx0]; exact h.rootFix x) hr
        · exact h1
      have hfuel' : ∃ m ≤ fuel,
          (Function.update parent x (parent (parent x)))^[m]
            (parent (parent x)) = ρ (parent (parent x)) := by
        rcases n with _ | n
        · omega
        rcases n with _ | n'
        · rw [Function.iterate_one] at hn
          refine ⟨0, Nat.zero_le _, ?_⟩
          show parent (parent x) = ρ (parent (parent x))
          rw [hrgp, hn]
          exact h.rootFix x
        · have hch : ∀ k < n', parent^[k] (parent (parent x)) ≠ x := by
            intro k hk hc
            refine h.chain_ne hr (k := k + 2) (by omega) ?_
            rw [Function.iterate_add_apply, h2, hc]
          have hval : parent^[n'] (parent (parent x)) = ρ x := by
            rw [← h2, ← Function.iterate_add_apply]
            exact hn
          refine ⟨n', by omega, ?_⟩
          rw [update_iterate_eq hch, hval, hrgp]
      have hres := ih hInv' hgp_mem hfuel'
      simp only [findAux, if_neg hr]
      exact ⟨hres.1.trans hrgp, hres.2⟩

theorem UFInv.link {α : Type} {es : List α} {parent ρ : α → α}
    [DecidableEq α] (h : UFInv es parent ρ) {r1 r2 : α}
    (h1 : r1 ∈ es) (h2 : r2 ∈ es) (hρ1 : ρ r1 = r1) (hρ2 : ρ r2 = r2)
    (hne : r1 ≠ r2) :
    UFInv es (Function.update parent r2 r1)
      (fun x => if ρ x = r2 then r1 else ρ x) ∧
    (∀ x y, ((if ρ x = r2 then r1 else ρ x) = (if ρ y = r2 then r1 else ρ y)
      ↔ (ρ x = ρ y ∨ (ρ x = r1 ∧ ρ y = r2) ∨ (ρ x = r2 ∧ ρ y = r1)))) := by
  have hfix1 : parent r1 = r1 := by
    conv_lhs => rw [← hρ1]
    rw [h.rootFix, hρ1]
  constructor
  · refine ⟨?_, ?_, ?_, ?_, ?_⟩
    · intro x hx
      by_cases hx2 : x = r2
      · subst hx2; rw [Function.update_same]; exact h1
      · rw [Function.update_noteq hx2]; exact h.mapsTo _ hx
    · intro x hx
      have hx2 : x ≠ r2 := fun hc => hx (hc ▸ h2)
      have hout := h.outside x hx
      refine ⟨by rw [Function.update_noteq hx2]; exact hout.1, ?_⟩
      have : ρ x ≠ r2 := fun hc => hx2 (hout.2 ▸ hc)
      simp only [if_neg this]
      exact hout.2
    · intro x
      by_cases hc : ρ x = r2
      · have hex : ∃ n, parent^[n] x = r2 := by
          obtain ⟨n, hn⟩ := h.reach x
          exact ⟨n, hc ▸ hn⟩
        set n₀ := Nat.find hex with hdef
        have hspec : parent^[n₀] x = r2 := Nat.find_spec hex
        have hch : ∀ k < n₀, parent^[k] x ≠ r2 := fun k hk => Nat.find_min hex hk
        refine ⟨n₀ + 1, ?_⟩
        rw [Function.iterate_succ_apply', update_iterate_eq hch, hspec,
          Function.update_same, if_pos hc]
      · obtain ⟨n, hn⟩ := h.reach x
        have hch : ∀ k < n, parent^[k] x ≠ r2 := by
          intro k _ hcyc
          exact hc (by rw [← h.rho_iter x k, hcyc, hρ2])
        refine ⟨n, ?_⟩
        rw [update_iterate_eq hch, hn, if_neg hc]
    · intro x
      by_cases hc : ρ x = r2
      · rw [if_pos hc, Function.update_noteq hne, hfix1]
      · rw [if_neg hc, Function.update_noteq hc]
        exact h.rootFix x
    · intro x
      by_cases hx2 : x = r2
      · rw [hx2, Function.update_same]
        show (if ρ r1 = r2 then r1 else ρ r1) = if ρ r2 = r2 then r1 else ρ r2
        rw [hρ1, hρ2, if_neg hne, if_pos rfl]
      · rw [Function.update_noteq hx2]
        show (if ρ (parent x) = r2 then r1 else ρ (parent x)) =
          if ρ x = r2 then r1 else ρ x
        rw [h.compat x]
  · intro x y
    by_cases hx : ρ x = r2
    · by_cases hy : ρ y = r2
      · rw [if_pos hx, if_pos hy]
        simp [hx, hy]
      · rw [if_pos hx, if_neg hy]
        constructor
        · intro hl
          exact Or.inr (Or.inr ⟨hx, hl.symm⟩)
        · rintro (hl | ⟨hl1, hl2⟩ | ⟨hl1, hl2⟩)
          · exact absurd (hl.symm.trans hx) hy
          · exact absurd (hl1.symm.trans hx) hne
          · exact hl2.symm
    · by_cases hy : ρ y = r2
      · rw [if_neg hx, if_pos hy]
        constructor
        · intro hl
          exact Or.inr (Or.inl ⟨hl, hy⟩)
        · rintro (hl | ⟨hl1, hl2⟩ | ⟨hl1, hl2⟩)
          · exact absurd (hl.trans hy) hx
          · exact hl1
          · exact absurd hl1 hx
      · rw [if_neg hx, if_neg hy]
        constructor
        · exact Or.inl
        · rintro (hl | ⟨hl1, hl2⟩ | ⟨hl1, hl2⟩)
          · exact hl
          · exact absurd hl2 hy
          · exact absurd hl1 hx

theorem ufUnion_spec {α : Type} [DecidableEq α] {es : List α}
    {uf : UnionFind α} {ρ : α → α} (h : UFInv es uf.parent ρ) {a b : α}
    (ha : a ∈ es) (hb : b ∈ es) :
    ∃ ρ', UFInv es (ufUnion es.length uf a b).parent ρ' ∧
      ∀ x y, (ρ' x = ρ' y ↔
        (ρ x = ρ y ∨ (ρ x = ρ a ∧ ρ y = ρ b) ∨ (ρ x = ρ b ∧ ρ y = ρ a))) := by
  obtain ⟨hfa2, hfa1⟩ := findAux_spec h ha (h.steps_le ha)
  obtain ⟨hfb2, hfb1⟩ := findAux_spec hfa1 hb (hfa1.steps_le hb)
  simp only [ufUnion, hfa2, hfb2]
  by_cases heq : ρ a = ρ b
  · rw [if_pos heq]
    refine ⟨ρ, hfb1, fun x y => ?_⟩
    constructor
    · exact fun hl => Or.inl hl
    · rintro (hl | ⟨hl1, hl2⟩ | ⟨hl1, hl2⟩)
      · exact hl
      · exact hl1.trans (heq.trans hl2.symm)
      · exact hl1.trans (heq.symm.trans hl2.symm)
  · rw [if_neg heq]
    by_cases hsz : uf.size (ρ a) < uf.size (ρ b)
    · rw [if_pos hsz]
      obtain ⟨hInv, hiff⟩ := hfb1.link
        (h.rho_mem hb) (h.rho_mem ha) (h.rho_idem b) (h.rho_idem a)
        (fun hc => heq hc.symm)
      refine ⟨fun x => if ρ x = ρ a then ρ b else ρ x, hInv, fun x y => ?_⟩
      rw [hiff x y]
      tauto
    · rw [if_neg hsz]
      obtain ⟨hInv, hiff⟩ := hfb1.link
        (h.rho_mem ha) (h.rho_mem hb) (h.rho_idem a) (h.rho_idem b) heq
      exact ⟨fun x => if ρ x = ρ b then ρ a else ρ x, hInv, fun x y => hiff x y⟩

theorem eqvGen_mono_into {α : Type} {R S : α → α → Prop}
    (h : ∀ u v, R u v → Relation.EqvGen S u v) {x y : α}
    (hxy : Relation.EqvGen R x y) : Relation.EqvGen S x y := by
  induction hxy with
  | rel u v huv => exact h u v huv
  | refl u => exact Relation.EqvGen.refl u
  | symm u v _ ih => exact Relation.EqvGen.symm u v ih
  | trans u v w _ _ ih1 ih2 => exact Relation.EqvGen.trans u v w ih1 ih2

theorem eqvGen_congr {α : Type} {R S : α → α → Prop}
    (h : ∀ u v, R u v ↔ S u v) (x y : α) :
    Relation.EqvGen R x y ↔ Relation.EqvGen S x y :=
  ⟨eqvGen_mono_into (fun u v huv => Relation.EqvGen.rel u v ((h u v).mp huv)),
   eqvGen_mono_into (fun u v huv => Relation.EqvGen.rel u v ((h u v).mpr huv))⟩

theorem eqvGen_collapse {α : Type} {A B : α → α → Prop} (x y : α) :
    Relation.EqvGen (fun u v => Relation.EqvGen A u v ∨ B u v) x y ↔
    Relation.EqvGen (fun u v => A u v ∨ B u v) x y := by
  constructor
  · refine eqvGen_mono_into (fun u v huv => ?_)
    rcases huv with hA | hB
    · exact eqvGen_mono_into
        (fun s t hst => Relation.EqvGen.rel s t (Or.inl hst)) hA
    · exact Relation.EqvGen.rel u v (Or.inr hB)
  · refine eqvGen_mono_into (fun u v huv => ?_)
    rcases huv with hA | hB
    · exact Relation.EqvGen.rel u v (Or.inl (Relation.EqvGen.rel u v hA))
    · exact Relation.EqvGen.rel u v (Or.inr hB)

theorem eqvGen_eq_or {α : Type} {B : α → α → Prop} (x y : α) :
    Relation.EqvGen (fun u v => u = v ∨ B u v) x y ↔
    Relation.EqvGen B x y := by
  constructor
  · refine eqvGen_mono_into (fun u v huv => ?_)
    rcases huv with hE | hB
    · exact hE ▸ Relation.EqvGen.refl u
    · exact Relation.EqvGen.rel u v hB
  · exact eqvGen_mono_into (fun u v huv => Relation.EqvGen.rel u v (Or.inr huv))

theorem equivalence_add_pair {α : Type} {E : α → α → Prop} {R : α → α → Prop}
    (hE : Equivalence E) (hER : ∀ x y, E x y ↔ Relation.EqvGen R x y)
    (a b : α) (x y : α) :
    (E x y ∨ (E x a ∧ E b y) ∨ (E x b ∧ E a y)) ↔
    Relation.EqvGen (fun u v => R u v ∨ (u = a ∧ v = b)) x y := by
  have hD : Equivalence (fun x y => E x y ∨ (E x a ∧ E b y) ∨ (E x b ∧ E a y)) := by
    constructor
    · intro x
      exact Or.inl (hE.refl x)
    · intro x y hxy
      rcases hxy with h1 | ⟨h1, h2⟩ | ⟨h1, h2⟩
      · exact Or.inl (hE.symm h1)
      · exact Or.inr (Or.inr ⟨hE.symm h2, hE.symm h1⟩)
      · exact Or.inr (Or.inl ⟨hE.symm h2, hE.symm h1⟩)
    · intro x y z hxy hyz
      rcases hxy with h1 | ⟨h1, h2⟩ | ⟨h1, h2⟩ <;>
        rcases hyz with h3 | ⟨h3, h4⟩ | ⟨h3, h4⟩
      · exact Or.inl (hE.trans h1 h3)
      · exact Or.inr (Or.inl ⟨hE.trans h1 h3, h4⟩)
      · exact Or.inr (Or.inr ⟨hE.trans h1 h3, h4⟩)
      · exact Or.inr (Or.inl ⟨h1, hE.trans h2 h3⟩)
      · exact Or.inl (hE.trans h1 (hE.trans (hE.symm (hE.trans h2 h3)) h4))
      · exact Or.inl (hE.trans h1 h4)
      · exact Or.inr (Or.inr ⟨h1, hE.trans h2 h3⟩)
      · exact Or.inl (hE.trans h1 h4)
      · exact Or.inl (hE.trans h1 (hE.trans (hE.symm (hE.trans h2 h3)) h4))
  constructor
  · intro hd
    rcases hd with h1 | ⟨h1, h2⟩ | ⟨h1, h2⟩
    · exact eqvGen_mono_into
        (fun u v huv => Relation.EqvGen.rel u v (Or.inl huv))
        ((hER x y).mp h1)
    · refine Relation.EqvGen.trans _ a _ ?_ (Relation.EqvGen.trans _ b _ ?_ ?_)
      · exact eqvGen_mono_into
          (fun u v huv => Relation.EqvGen.rel u v (Or.inl huv))
          ((hER x a).mp h1)
      · exact Relation.EqvGen.rel a b (Or.inr ⟨rfl, rfl⟩)
      · exact eqvGen_mono_into
          (fun u v huv => Relation.EqvGen.rel u v (Or.inl huv))
          ((hER b y).mp h2)
    · refine Relation.EqvGen.trans _ b _ ?_ (Relation.EqvGen.trans _ a _ ?_ ?_)
      · exact eqvGen_mono_into
          (fun u v huv => Relation.EqvGen.rel u v (Or.inl huv))
          ((hER x b).mp h1)
      · exact Relation.EqvGen.symm _ _ (Relation.EqvGen.rel a b (Or.inr ⟨rfl, rfl⟩))
      · exact eqvGen_mono_into
          (fun u v huv => Relation.EqvGen.rel u v (Or.inl huv))
          ((hER a y).mp h2)
  · intro hg
    refine (Equivalence.eqvGen_iff hD).mp ?_
    refine eqvGen_mono_into (fun u v huv => ?_) hg
    rcases huv with hR | ⟨hua, hvb⟩
    · exact Relation.EqvGen.rel u v
        (Or.inl ((hER u v).mpr (Relation.EqvGen.rel u v hR)))
    · subst hua; subst hvb
      exact Relation.EqvGen.rel u v (Or.inr (Or.inl ⟨hE.refl u, hE.refl v⟩))

theorem rho_eq_equivalence {α : Type} (ρ : α → α) :
    Equivalence (fun u v : α => ρ u = ρ v) :=
  ⟨fun _ => rfl, fun h => h.symm, fun h1 h2 => h1.trans h2⟩

theorem condUnion_spec {es : List Cell} {uf : UnionFind Cell} {ρ : Cell → Cell}
    (hInv : UFInv es uf.parent ρ) {p : Cell} (hp : p ∈ es) (n : Cell) :
    ∃ ρ', UFInv es
        (if n ∈ es then ufUnion es.length uf p n else uf).parent ρ' ∧
      ∀ x y, (ρ' x = ρ' y ↔ Relation.EqvGen
        (fun u v => ρ u = ρ v ∨ (u = p ∧ v ∈ es ∧ v = n)) x y) := by
  have hEρ := rho_eq_equivalence ρ
  by_cases hn : n ∈ es
  · obtain ⟨ρ', hInv', hiff⟩ := ufUnion_spec hInv hp hn
    rw [if_pos hn]
    refine ⟨ρ', hInv', fun x y => ?_⟩
    have hadd := equivalence_add_pair hEρ
      (fun u v => (Equivalence.eqvGen_iff hEρ).symm) p n x y
    have hDD : (ρ x = ρ y ∨ (ρ x = ρ p ∧ ρ y = ρ n) ∨ (ρ x = ρ n ∧ ρ y = ρ p))
        ↔ (ρ x = ρ y ∨ (ρ x = ρ p ∧ ρ n = ρ y) ∨ (ρ x = ρ n ∧ ρ p = ρ y)) := by
      constructor
      · rintro (h | ⟨h1, h2⟩ | ⟨h1, h2⟩)
        exacts [Or.inl h, Or.inr (Or.inl ⟨h1, h2.symm⟩),
          Or.inr (Or.inr ⟨h1, h2.symm⟩)]
      · rintro (h | ⟨h1, h2⟩ | ⟨h1, h2⟩)
        exacts [Or.inl h, Or.inr (Or.inl ⟨h1, h2.symm⟩),
          Or.inr (Or.inr ⟨h1, h2.symm⟩)]
    have hG : Relation.EqvGen (fun u v => ρ u = ρ v ∨ (u = p ∧ v = n)) x y ↔
        Relation.EqvGen (fun u v => ρ u = ρ v ∨ (u = p ∧ v ∈ es ∧ v = n)) x y := by
      refine eqvGen_congr (fun u v => ?_) x y
      constructor
      · rintro (h | ⟨h1, h2⟩)
        exacts [Or.inl h, Or.inr ⟨h1, h2 ▸ hn, h2⟩]
      · rintro (h | ⟨h1, _, h3⟩)
        exacts [Or.inl h, Or.inr ⟨h1, h3⟩]
    rw [hiff x y, hDD, hadd, hG]
  · rw [if_neg hn]
    refine ⟨ρ, hInv, fun x y => ?_⟩
    have hcongr := eqvGen_congr (R := fun u v : Cell => ρ u = ρ v)
      (S := fun u v => ρ u = ρ v ∨ (u = p ∧ v ∈ es ∧ v = n))
      (fun u v => ⟨Or.inl, by
        rintro (h | ⟨h1, h2, h3⟩)
        exacts [h, absurd (h3 ▸ h2) hn]⟩) x y
    rw [← hcongr, Equivalence.eqvGen_iff hEρ]

theorem pairStep_spec {es : List Cell} {uf : UnionFind Cell} {ρ : Cell → Cell}
    (hInv : UFInv es uf.parent ρ) {p : Cell} (hp : p ∈ es) (n1 n2 : Cell) :
    ∃ ρ', UFInv es
        (let uf1 := if n1 ∈ es then ufUnion es.length uf p n1 else uf
         if n2 ∈ es then ufUnion es.length uf1 p n2 else uf1).parent ρ' ∧
      ∀ x y, (ρ' x = ρ' y ↔ Relation.EqvGen
        (fun u v => ρ u = ρ v ∨ (u = p ∧ v ∈ es ∧ (v = n1 ∨ v = n2))) x y) := by
  obtain ⟨ρ₁, hInv₁, hiff₁⟩ := condUnion_spec hInv hp n1
  obtain ⟨ρ₂, hInv₂, hiff₂⟩ := condUnion_spec hInv₁ hp n2
  refine ⟨ρ₂, hInv₂, fun x y => ?_⟩
  rw [hiff₂ x y]
  have h1 : Relation.EqvGen
      (fun u v => ρ₁ u = ρ₁ v ∨ (u = p ∧ v ∈ es ∧ v = n2)) x y ↔
      Relation.EqvGen (fun u v =>
        Relation.EqvGen (fun s t => ρ s = ρ t ∨ (s = p ∧ t ∈ es ∧ t = n1)) u v ∨
        (u = p ∧ v ∈ es ∧ v = n2)) x y :=
    eqvGen_congr (fun u v => by rw [hiff₁ u v]) x y
  rw [h1, eqvGen_collapse]
  refine eqvGen_congr (fun u v => ?_) x y
  constructor
  · rintro ((h | ⟨h1, h2, h3⟩) | ⟨h1, h2, h3⟩)
    exacts [Or.inl h, Or.inr ⟨h1, h2, Or.inl h3⟩, Or.inr ⟨h1, h2, Or.inr h3⟩]
  · rintro (h | ⟨h1, h2, h3 | h3⟩)
    exacts [Or.inl (Or.inl h), Or.inl (Or.inr ⟨h1, h2, h3⟩),
      Or.inr ⟨h1, h2, h3⟩]

theorem pairFold_spec (es : List Cell) (nb1 nb2 : Cell → Cell) :
    ∀ (pending : List Cell) (uf : UnionFind Cell) (ρ : Cell → Cell),
      (∀ p ∈ pending, p ∈ es) → UFInv es uf.parent ρ →
      ∃ ρ', UFInv es
          ((pending.foldl (fun uf pos =>
            let uf1 := if nb1 pos ∈ es then
                ufUnion es.length uf pos (nb1 pos) else uf
            if nb2 pos ∈ es then
              ufUnion es.length uf1 pos (nb2 pos) else uf1) uf)).parent ρ' ∧
        ∀ x y, (ρ' x = ρ' y ↔ Relation.EqvGen
          (fun u v => ρ u = ρ v ∨
            (u ∈ pending ∧ v ∈ es ∧ (v = nb1 u ∨ v = nb2 u))) x y) := by
  intro pending
  induction pending with
  | nil =>
    intro uf ρ _ hInv
    refine ⟨ρ, hInv, fun x y => ?_⟩
    have hcongr := eqvGen_congr (R := fun u v : Cell => ρ u = ρ v)
      (S := fun u v => ρ u = ρ v ∨
        (u ∈ ([] : List Cell) ∧ v ∈ es ∧ (v = nb1 u ∨ v = nb2 u)))
      (fun u v => ⟨Or.inl, by
        rintro (h | ⟨h1, _⟩)
        exacts [h, absurd h1 (List.not_mem_nil u)]⟩) x y
    rw [← hcongr, Equivalence.eqvGen_iff (rho_eq_equivalence ρ)]
  | cons p rest ih =>
    intro uf ρ hsub hInv
    obtain ⟨ρ₁, hInv₁, hiff₁⟩ :=
      pairStep_spec hInv (hsub p (List.mem_cons_self p rest)) (nb1 p) (nb2 p)
    obtain ⟨ρ', hInv', hiff'⟩ := ih _ ρ₁
      (fun q hq => hsub q (List.mem_cons_of_mem p hq)) hInv₁
    rw [List.foldl_cons]
    refine ⟨ρ', hInv', fun x y => ?_⟩
    rw [hiff' x y]
    have h1 : Relation.EqvGen (fun u v => ρ₁ u = ρ₁ v ∨
        (u ∈ rest ∧ v ∈ es ∧ (v = nb1 u ∨ v = nb2 u))) x y ↔
        Relation.EqvGen (fun u v =>
          Relation.EqvGen (fun s t => ρ s = ρ t ∨
            (s = p ∧ t ∈ es ∧ (t = nb1 p ∨ t = nb2 p))) u v ∨
          (u ∈ rest ∧ v ∈ es ∧ (v = nb1 u ∨ v = nb2 u))) x y :=
      eqvGen_congr (fun u v => by rw [hiff₁ u v]) x y
    rw [h1, eqvGen_collapse]
    refine eqvGen_congr (fun u v => ?_) x y
    constructor
    · rintro ((h | ⟨h1, h2, h3⟩) | ⟨h1, h2, h3⟩)
      · exact Or.inl h
      · subst h1
        exact Or.inr ⟨List.mem_cons_self u rest, h2, h3⟩
      · exact Or.inr ⟨List.mem_cons_of_mem p h1, h2, h3⟩
    · rintro (h | ⟨h1, h2, h3⟩)
      · exact Or.inl (Or.inl h)
      · rcases List.mem_cons.mp h1 with hup | hur
        · subst hup
          exact Or.inl (Or.inr ⟨rfl, h2, h3⟩)
        · exact Or.inr ⟨hur, h2, h3⟩

theorem rootsAux_spec {α : Type} [DecidableEq α] {es : List α} :
    ∀ (l : List α) (parent : α → α) (ρ : α → α), (∀ e ∈ l, e ∈ es) →
      UFInv es parent ρ →
      (rootsAux es.length parent l).2 = l.map ρ := by
  intro l
  induction l with
  | nil => intro parent ρ _ _; rfl
  | cons e rest ih =>
    intro parent ρ hsub hInv
    obtain ⟨hfe2, hfe1⟩ :=
      findAux_spec hInv (hsub e (List.mem_cons_self e rest))
        (hInv.steps_le (hsub e (List.mem_cons_self e rest)))
    simp only [rootsAux, List.map_cons]
    rw [hfe2, ih _ ρ (fun q hq => hsub q (List.mem_cons_of_mem e hq)) hfe1]

theorem createUnionFind_inv {α : Type} (es : List α) :
    UFInv es (createUnionFind α).parent (fun x => x) :=
  ⟨fun x hx => hx, fun _ _ => ⟨rfl, rfl⟩, fun x => ⟨0, rfl⟩,
    fun _ => rfl, fun _ => rfl⟩

theorem eqvGen_subtype_iff {α : Type} (s : Finset α) (r : α → α → Prop)
    (hr : ∀ a b, r a b → a ∈ s ∧ b ∈ s) (x y : {z // z ∈ s}) :
    Relation.EqvGen (fun u v : {z // z ∈ s} => r u.1 v.1) x y ↔
    Relation.EqvGen r x.1 y.1 := by
  constructor
  · intro h
    induction h with
    | rel u v huv => exact Relation.EqvGen.rel _ _ huv
    | refl u => exact Relation.EqvGen.refl _
    | symm u v _ ih => exact Relation.EqvGen.symm _ _ ih
    | trans u v w _ _ ih1 ih2 => exact Relation.EqvGen.trans _ _ _ ih1 ih2
  · intro h
    have haux : ∀ a b : α, Relation.EqvGen r a b → a = b ∨
        ∃ (ha : a ∈ s) (hb : b ∈ s),
          Relation.EqvGen (fun u v : {z // z ∈ s} => r u.1 v.1)
            ⟨a, ha⟩ ⟨b, hb⟩ := by
      intro a b hab
      induction hab with
      | rel u v huv =>
        obtain ⟨hu, hv⟩ := hr u v huv
        exact Or.inr ⟨hu, hv, Relation.EqvGen.rel _ _ huv⟩
      | refl u => exact Or.inl rfl
      | symm u v _ ih =>
        rcases ih with heq | ⟨hu, hv, hconn⟩
        · exact Or.inl heq.symm
        · exact Or.inr ⟨hv, hu, Relation.EqvGen.symm _ _ hconn⟩
      | trans u v w _ _ ih1 ih2 =>
        rcases ih1 with heq1 | ⟨hu, hv, hconn1⟩
        · rcases ih2 with heq2 | ⟨hv2, hw, hconn2⟩
          · exact Or.inl (heq1.trans heq2)
          · exact Or.inr ⟨heq1 ▸ hv2, hw, heq1 ▸ hconn2⟩
        · rcases ih2 with heq2 | ⟨hv2, hw, hconn2⟩
          · exact Or.inr ⟨hu, heq2 ▸ hv, heq2 ▸ hconn1⟩
          · exact Or.inr ⟨hu, hw, Relation.EqvGen.trans _ ⟨v, hv⟩ _ hconn1 hconn2⟩
    rcases haux x.1 y.1 h with heq | ⟨hx', hy', hconn⟩
    · have hxy : x = y := Subtype.ext heq
      exact hxy ▸ Relation.EqvGen.refl x
    · have hx2 : (⟨x.1, hx'⟩ : {z // z ∈ s}) = x := Subtype.ext rfl
      have hy2 : (⟨y.1, hy'⟩ : {z // z ∈ s}) = y := Subtype.ext rfl
      exact hx2 ▸ hy2 ▸ hconn

theorem numComponents_eq_image_card {α β : Type} [DecidableEq α]
    [DecidableEq β] (s : Finset α) (adj : α → α → Prop) (φ : α → β)
    (h : ∀ x y : {z // z ∈ s},
      (adjSetoid s adj).r x y ↔ φ x.1 = φ y.1) :
    numComponents s adj = (s.image φ).card := by
  classical
  set f : Quotient (adjSetoid s adj) → β :=
    Quotient.lift (fun x : {z // z ∈ s} => φ x.1)
      (fun a b hab => (h a b).mp hab) with hfdef
  have hinj : Function.Injective f := by
    intro q1 q2
    refine Quotient.inductionOn₂ q1 q2 (fun a b hab => ?_)
    exact Quotient.sound ((h a b).mpr hab)
  have hcard1 : numComponents s adj = Nat.card (Set.range f) :=
    (Nat.card_range_of_injective hinj).symm
  have hrange : Set.range f = ↑(s.image φ) := by
    ext b
    constructor
    · rintro ⟨q, hq⟩
      refine Quotient.inductionOn q (fun a ha => ?_) hq
      rw [Finset.coe_image]
      exact ⟨a.1, a.2, ha⟩
    · intro hb
      rw [Finset.coe_image] at hb
      obtain ⟨a, ha, hab⟩ := hb
      exact ⟨Quotient.mk _ ⟨a, ha⟩, hab⟩
  rw [hcard1, hrange, Set.Nat.card_coe_set_eq, Set.ncard_coe_Finset]

theorem list_toFinset_map {α β : Type} [DecidableEq α] [DecidableEq β]
    (l : List α) (f : α → β) : (l.map f).toFinset = l.toFinset.image f := by
  ext b
  simp

theorem groupCore (edges : List Cell) (nb1 nb2 : Cell → Cell)
    (adj : Cell → Cell → Prop)
    (hadj : ∀ u v, (v = nb1 u ∨ v = nb2 u) ↔ adj u v) :
    countComponents edges.length
      (edges.foldl (fun uf pos =>
        let uf1 := if nb1 pos ∈ edges then
            ufUnion edges.length uf pos (nb1 pos) else uf
        if nb2 pos ∈ edges then
          ufUnion edges.length uf1 pos (nb2 pos) else uf1)
        (createUnionFind Cell)) edges
      = numComponents edges.toFinset adj := by
  obtain ⟨ρf, hInvf, hifff⟩ :=
    pairFold_spec edges nb1 nb2 edges (createUnionFind Cell) (fun x => x)
      (fun p hp => hp) (createUnionFind_inv edges)
  have hval : ∀ x y : Cell, ρf x = ρf y ↔
      Relation.EqvGen (fun u v =>
        adj u v ∧ u ∈ edges ∧ v ∈ edges) x y := by
    intro x y
    rw [hifff x y]
    have h1 : Relation.EqvGen (fun u v : Cell => (fun z => z) u = (fun z => z) v ∨
        (u ∈ edges ∧ v ∈ edges ∧ (v = nb1 u ∨ v = nb2 u))) x y ↔
        Relation.EqvGen (fun u v : Cell =>
          (u ∈ edges ∧ v ∈ edges ∧ (v = nb1 u ∨ v = nb2 u))) x y :=
      eqvGen_eq_or x y
    rw [h1]
    refine eqvGen_congr (fun u v => ?_) x y
    constructor
    · rintro ⟨h1, h2, h3⟩
      exact ⟨(hadj u v).mp h3, h1, h2⟩
    · rintro ⟨h1, h2, h3⟩
      exact ⟨h2, h3, (hadj u v).mpr h1⟩
  have hcount : countComponents edges.length
      (edges.foldl (fun uf pos =>
        let uf1 := if nb1 pos ∈ edges then
            ufUnion edges.length uf pos (nb1 pos) else uf
        if nb2 pos ∈ edges then
          ufUnion edges.length uf1 pos (nb2 pos) else uf1)
        (createUnionFind Cell)) edges = (edges.map ρf).dedup.length := by
    unfold countComponents
    rw [rootsAux_spec edges _ ρf (fun e he => he) hInvf]
  rw [hcount]
  have hnum := numComponents_eq_image_card edges.toFinset adj ρf ?_
  · rw [hnum, ← list_toFinset_map, List.card_toFinset]
  · intro x y
    show Relation.EqvGen
      (fun u v : {z // z ∈ edges.toFinset} => adj u.1 v.1) x y ↔ _
    have hsub : Relation.EqvGen
        (fun u v : {z // z ∈ edges.toFinset} => adj u.1 v.1) x y ↔
        Relation.EqvGen
          (fun u v : {z // z ∈ edges.toFinset} =>
            adj u.1 v.1 ∧ u.1 ∈ edges ∧ v.1 ∈ edges) x y := by
      refine eqvGen_congr (fun u v => ?_) x y
      constructor
      · intro h
        exact ⟨h, List.mem_toFinset.mp u.2, List.mem_toFinset.mp v.2⟩
      · exact fun h => h.1
    rw [hsub, eqvGen_subtype_iff edges.toFinset
      (fun a b => adj a b ∧ a ∈ edges ∧ b ∈ edges)
      (fun a b hab => ⟨List.mem_toFinset.mpr hab.2.1,
        List.mem_toFinset.mpr hab.2.2⟩) x y]
    exact (hval x.1 y.1).symm

theorem numComponents_nil (adj : Cell → Cell → Prop) :
    numComponents (([] : List Cell).toFinset) adj = 0 := by
  haveI h1 : IsEmpty {z // z ∈ ([] : List Cell).toFinset} :=
    ⟨fun x => absurd (List.mem_toFinset.mp x.2) (List.not_mem_nil _)⟩
  haveI h2 : IsEmpty (Quotient (adjSetoid ([] : List Cell).toFinset adj)) :=
    ⟨fun q => Quotient.inductionOn q (fun a => h1.elim a)⟩
  exact Nat.card_of_isEmpty

theorem vertAdjacent_iff (u v : Cell) :
    (v = (u.1, u.2 - 1) ∨ v = (u.1, u.2 + 1)) ↔ vertAdjacent u v := by
  obtain ⟨ux, uy⟩ := u
  obtain ⟨vx, vy⟩ := v
  simp only [vertAdjacent, Prod.mk.injEq]
  omega

theorem horizAdjacent_iff (u v : Cell) :
    (v = (u.1 - 1, u.2) ∨ v = (u.1 + 1, u.2)) ↔ horizAdjacent u v := by
  obtain ⟨ux, uy⟩ := u
  obtain ⟨vx, vy⟩ := v
  simp only [horizAdjacent, Prod.mk.injEq]
  omega

theorem groupEdgeSegments_eq_vert (edges : List Cell) :
    groupEdgeSegments edges true = numComponents edges.toFinset vertAdjacent := by
  rcases eq_or_ne edges [] with hnil | hne
  · subst hnil
    rw [numComponents_nil]
    rfl
  · have hfalse : edges.isEmpty = false := by
      cases edges
      · exact absurd rfl hne
      · rfl
    simp only [groupEdgeSegments, hfalse, Bool.false_eq_true, if_false]
    exact groupCore edges (fun p => (p.1, p.2 - 1)) (fun p => (p.1, p.2 + 1))
      vertAdjacent vertAdjacent_iff

theorem groupEdgeSegments_eq_horiz (edges : List Cell) :
    groupEdgeSegments edges false =
      numComponents edges.toFinset horizAdjacent := by
  rcases eq_or_ne edges [] with hnil | hne
  · subst hnil
    rw [numComponents_nil]
    rfl
  · have hfalse : edges.isEmpty = false := by
      cases edges
      · exact absurd rfl hne
      · rfl
    simp only [groupEdgeSegments, hfalse, Bool.false_eq_true, if_false]
    exact groupCore edges (fun p => (p.1 - 1, p.2)) (fun p => (p.1 + 1, p.2))
      horizAdjacent horizAdjacent_iff

/-! ### C1: side counting equals connected-component counting -/

/-- Claim C1: for every region, the side count computed by the boundary
segment grouper (`computeSides`, four `groupEdgeSegments` calls) equals the
sum, over the four edge orientations, of the number of connected components of
that orientation's boundary-cell set, where two boundary cells of one
orientation are connected iff they are adjacent along the axis perpendicular
to the edge normal: vertically (same `x`, `y` differing by 1) for left/right
edges, horizontally (same `y`, `x` differing by 1) for top/bottom edges. -/
theorem sides_eq_component_counts (region : Region) :
    computeSides region =
      numComponents (leftEdges region).toFinset vertAdjacent +
      numComponents (rightEdges region).toFinset vertAdjacent +
      numComponents (topEdges region).toFinset horizAdjacent +
      numComponents (bottomEdges region).toFinset horizAdjacent := by
  unfold computeSides
  rw [groupEdgeSegments_eq_vert, groupEdgeSegments_eq_vert,
    groupEdgeSegments_eq_horiz, groupEdgeSegments_eq_horiz]

/-! ### Flood-fill invariants -/

theorem mem_allCells (g : GridData) (c : Cell) :
    c ∈ allCells g ↔ inBounds g c.1 c.2 := by
  constructor
  · intro h
    obtain ⟨⟨a, b⟩, hab, hc⟩ := Finset.mem_image.mp h
    rw [Finset.mem_product, Finset.mem_range, Finset.mem_range] at hab
    obtain ⟨ha, hb⟩ := hab
    refine ⟨?_, ?_, ?_, ?_⟩ <;> rw [← hc] <;> simp <;> omega
  · intro h
    obtain ⟨h1, h2, h3, h4⟩ := h
    refine Finset.mem_image.mpr ⟨(c.1.toNat, c.2.toNat), ?_, ?_⟩
    · rw [Finset.mem_product, Finset.mem_range, Finset.mem_range]
      omega
    · rw [Prod.ext_iff]
      constructor <;> simp <;> omega

theorem bfsFold_spec (g : GridData) (ch : Option Char) (c : Cell) :
    ∀ (dirs : List (Int × Int)) (v : Finset Cell) (cs q : List Cell),
    ∃ Δ : List Cell,
      dirs.foldl (bfsStep g ch c) (v, cs, q) =
        (v ∪ Δ.toFinset, cs ++ Δ, q ++ Δ) ∧
      Δ.Nodup ∧
      (∀ n ∈ Δ, n ∉ v ∧ inBounds g n.1 n.2 ∧ gridAt g n.1 n.2 = ch) ∧
      (∀ d ∈ dirs,
        (inBounds g (c.1 + d.1) (c.2 + d.2) ∧
          gridAt g (c.1 + d.1) (c.2 + d.2) = ch) →
        (c.1 + d.1, c.2 + d.2) ∈ v ∪ Δ.toFinset) := by
  intro dirs
  induction dirs with
  | nil =>
    intro v cs q
    exact ⟨[], by simp, List.nodup_nil, fun n hn => absurd hn (List.not_mem_nil n),
      fun d hd => absurd hd (List.not_mem_nil d)⟩
  | cons d dirs ih =>
    intro v cs q
    rw [List.foldl_cons]
    by_cases hcond : inBounds g (c.1 + d.1) (c.2 + d.2) ∧
        (c.1 + d.1, c.2 + d.2) ∉ v ∧ gridAt g (c.1 + d.1) (c.2 + d.2) = ch
    · have hstep : bfsStep g ch c (v, cs, q) d =
          (insert (c.1 + d.1, c.2 + d.2) v, cs ++ [(c.1 + d.1, c.2 + d.2)],
            q ++ [(c.1 + d.1, c.2 + d.2)]) := by
        simp only [bfsStep, if_pos hcond]
      rw [hstep]
      obtain ⟨Δ', heq, hnd, hprop, hclosed⟩ := ih
        (insert (c.1 + d.1, c.2 + d.2) v) (cs ++ [(c.1 + d.1, c.2 + d.2)])
        (q ++ [(c.1 + d.1, c.2 + d.2)])
      set n : Cell := (c.1 + d.1, c.2 + d.2)
      have hsets : insert n v ∪ Δ'.toFinset = v ∪ (n :: Δ').toFinset := by
        rw [List.toFinset_cons]
        rw [Finset.insert_union, Finset.union_insert]
      refine ⟨n :: Δ', ?_, ?_, ?_, ?_⟩
      · rw [heq, hsets]
        simp
      · refine List.nodup_cons.mpr ⟨?_, hnd⟩
        intro hc
        exact ((hprop n hc).1) (Finset.mem_insert_self n v)
      · intro m hm
        rcases List.mem_cons.mp hm with hm1 | hm2
        · subst hm1
          exact ⟨hcond.2.1, hcond.1, hcond.2.2⟩
        · obtain ⟨hm3, hm4, hm5⟩ := hprop m hm2
          exact ⟨fun hmv => hm3 (Finset.mem_insert_of_mem hmv), hm4, hm5⟩
      · intro d' hd' hcond'
        rcases List.mem_cons.mp hd' with hd1 | hd2
        · subst hd1
          rw [← hsets]
          exact Finset.mem_union_left _ (Finset.mem_insert_self n v)
        · rw [← hsets]
          exact hclosed d' hd2 hcond'
    · have hstep : bfsStep g ch c (v, cs, q) d = (v, cs, q) := by
        simp only [bfsStep, if_neg hcond]
      rw [hstep]
      obtain ⟨Δ', heq, hnd, hprop, hclosed⟩ := ih v cs q
      refine ⟨Δ', heq, hnd, hprop, ?_⟩
      intro d' hd' hcond'
      rcases List.mem_cons.mp hd' with hd1 | hd2
      · subst hd1
        have hin : (c.1 + d'.1, c.2 + d'.2) ∈ v := by
          by_contra hno
          exact hcond ⟨hcond'.1, hno, hcond'.2⟩
        exact Finset.mem_union_left _ hin
      · exact hclosed d' hd2 hcond'

theorem bfsVisit_delta (g : GridData) (ch : Option Char) :
    ∀ (fuel : ℕ) (v : Finset Cell) (cs q : List Cell),
    ∃ Δ : List Cell,
      (bfsVisit g ch fuel v cs q).1 = v ∪ Δ.toFinset ∧
      (bfsVisit g ch fuel v cs q).2.1 = cs ++ Δ ∧
      Δ.Nodup ∧
      (∀ n ∈ Δ, n ∉ v ∧ inBounds g n.1 n.2 ∧ gridAt g n.1 n.2 = ch) := by
  intro fuel
  induction fuel with
  | zero =>
    intro v cs q
    exact ⟨[], by simp [bfsVisit], by simp [bfsVisit], List.nodup_nil,
      fun n hn => absurd hn (List.not_mem_nil n)⟩
  | succ fuel ih =>
    intro v cs q
    cases q with
    | nil =>
      exact ⟨[], by simp [bfsVisit], by simp [bfsVisit], List.nodup_nil,
        fun n hn => absurd hn (List.not_mem_nil n)⟩
    | cons c q =>
      obtain ⟨Δ₀, heq0, hnd0, hprop0, _⟩ := bfsFold_spec g ch c directions v cs q
      obtain ⟨Δ₁, heq1a, heq1b, hnd1, hprop1⟩ :=
        ih (v ∪ Δ₀.toFinset) (cs ++ Δ₀) (q ++ Δ₀)
      have hstep : bfsVisit g ch (fuel + 1) v cs (c :: q) =
          bfsVisit g ch fuel (v ∪ Δ₀.toFinset) (cs ++ Δ₀) (q ++ Δ₀) := by
        simp only [bfsVisit, heq0]
      refine ⟨Δ₀ ++ Δ₁, ?_, ?_, ?_, ?_⟩
      · rw [hstep, heq1a, List.toFinset_append, Finset.union_assoc]
      · rw [hstep, heq1b, List.append_assoc]
      · rw [List.nodup_append]
        refine ⟨hnd0, hnd1, fun m hm0 hm1 => ?_⟩
        exact (hprop1 m hm1).1
          (Finset.mem_union_right v (List.mem_toFinset.mpr hm0))
      · intro n hn
        rcases List.mem_append.mp hn with hn0 | hn1
        · exact hprop0 n hn0
        · obtain ⟨h1, h2, h3⟩ := hprop1 n hn1
          exact ⟨fun hnv => h1 (Finset.mem_union_left _ hnv), h2, h3⟩

theorem bfsVisit_complete (g : GridData) (ch : Option Char) :
    ∀ (fuel : ℕ) (v : Finset Cell) (cs q : List Cell),
    (∀ a ∈ v, a ∈ q ∨ ∀ d ∈ directions,
      (inBounds g (a.1 + d.1) (a.2 + d.2) ∧
        gridAt g (a.1 + d.1) (a.2 + d.2) = ch) →
      (a.1 + d.1, a.2 + d.2) ∈ v) →
    (allCells g \ v).card + q.length ≤ fuel →
    (bfsVisit g ch fuel v cs q).2.2 = [] ∧
    (∀ a ∈ (bfsVisit g ch fuel v cs q).1, ∀ d ∈ directions,
      (inBounds g (a.1 + d.1) (a.2 + d.2) ∧
        gridAt g (a.1 + d.1) (a.2 + d.2) = ch) →
      (a.1 + d.1, a.2 + d.2) ∈ (bfsVisit g ch fuel v cs q).1) := by
  intro fuel
  induction fuel with
  | zero =>
    intro v cs q hfront hfuel
    have hq : q = [] := by
      have := Nat.le_zero.mp hfuel
      cases q with
      | nil => rfl
      | cons a q => simp at this
    subst hq
    refine ⟨rfl, fun a ha d hd hcond => ?_⟩
    rcases hfront a ha with h1 | h2
    · exact absurd h1 (List.not_mem_nil a)
    · exact h2 d hd hcond
  | succ fuel ih =>
    intro v cs q hfront hfuel
    cases q with
    | nil =>
      refine ⟨rfl, fun a ha d hd hcond => ?_⟩
      rcases hfront a ha with h1 | h2
      · exact absurd h1 (List.not_mem_nil a)
      · exact h2 d hd hcond
    | cons c q =>
      obtain ⟨Δ₀, heq0, hnd0, hprop0, hclosed0⟩ :=
        bfsFold_spec g ch c directions v cs q
      have hstep : bfsVisit g ch (fuel + 1) v cs (c :: q) =
          bfsVisit g ch fuel (v ∪ Δ₀.toFinset) (cs ++ Δ₀) (q ++ Δ₀) := by
        simp only [bfsVisit, heq0]
      have hsubΔ : Δ₀.toFinset ⊆ allCells g \ v := by
        intro m hm
        rw [List.mem_toFinset] at hm
        obtain ⟨h1, h2, _⟩ := hprop0 m hm
        exact Finset.mem_sdiff.mpr ⟨(mem_allCells g m).mpr h2, h1⟩
      have hlen : Δ₀.toFinset.card = Δ₀.length := by
        rw [List.card_toFinset, List.dedup_eq_self.mpr hnd0]
      have hcard : (allCells g \ (v ∪ Δ₀.toFinset)).card =
          (allCells g \ v).card - Δ₀.length := by
        have hset : allCells g \ (v ∪ Δ₀.toFinset) =
            (allCells g \ v) \ Δ₀.toFinset := by
          ext m
          simp only [Finset.mem_sdiff, Finset.mem_union]
          tauto
        rw [hset, Finset.card_sdiff hsubΔ, hlen]
      have hle : Δ₀.length ≤ (allCells g \ v).card := by
        rw [← hlen]
        exact Finset.card_le_card hsubΔ
      have hfuel' : (allCells g \ (v ∪ Δ₀.toFinset)).card +
          (q ++ Δ₀).length ≤ fuel := by
        rw [hcard, List.length_append]
        simp only [List.length_cons] at hfuel
        omega
      have hfront' : ∀ a ∈ v ∪ Δ₀.toFinset, a ∈ q ++ Δ₀ ∨
          ∀ d ∈ directions,
            (inBounds g (a.1 + d.1) (a.2 + d.2) ∧
              gridAt g (a.1 + d.1) (a.2 + d.2) = ch) →
            (a.1 + d.1, a.2 + d.2) ∈ v ∪ Δ₀.toFinset := by
        intro a ha
        rcases Finset.mem_union.mp ha with hav | haΔ
        · rcases hfront a hav with haq | haclosed
          · rcases List.mem_cons.mp haq with hac | haq2
            · subst hac
              exact Or.inr (fun d hd hcond => hclosed0 d hd hcond)
            · exact Or.inl (List.mem_append_left Δ₀ haq2)
          · exact Or.inr (fun d hd hcond =>
              Finset.mem_union_left _ (haclosed d hd hcond))
        · exact Or.inl (List.mem_append_right q (List.mem_toFinset.mp haΔ))
      have hres := ih (v ∪ Δ₀.toFinset) (cs ++ Δ₀) (q ++ Δ₀) hfront' hfuel'
      rw [hstep]
      exact hres

theorem mem_rowMajor (g : GridData) (p : Cell) :
    p ∈ rowMajor g ↔ inBounds g p.1 p.2 := by
  obtain ⟨px, py⟩ := p
  constructor
  · intro h
    rw [rowMajor, List.mem_flatMap] at h
    obtain ⟨y, hy, hmem⟩ := h
    rw [List.mem_range] at hy
    rw [List.mem_map] at hmem
    obtain ⟨x, hx, hpe⟩ := hmem
    rw [List.mem_range] at hx
    rw [Prod.mk.injEq] at hpe
    obtain ⟨hxe, hye⟩ := hpe
    refine ⟨?_, ?_, ?_, ?_⟩ <;> omega
  · rintro ⟨h1, h2, h3, h4⟩
    refine List.mem_flatMap.mpr ⟨py.toNat, List.mem_range.mpr (by omega),
      List.mem_map.mpr ⟨px.toNat, List.mem_range.mpr (by omega), ?_⟩⟩
    rw [Prod.mk.injEq]
    constructor <;> omega

theorem findRegionsAux_spec (g : GridData) (fuel : ℕ) :
    ∀ (pending : List Cell) (v : Finset Cell) (regs : List Region),
    (∀ p ∈ pending, inBounds g p.1 p.2) →
    ∃ newRegs : List Region,
      findRegionsAux g fuel pending v regs = regs ++ newRegs ∧
      (∀ r ∈ newRegs, r.cells ≠ [] ∧ r.cells.Nodup ∧
        (∀ c ∈ r.cells, inBounds g c.1 c.2 ∧ gridAt g c.1 c.2 = r.char)) ∧
      (∀ r ∈ newRegs, ∀ c ∈ r.cells, c ∉ v) ∧
      List.Pairwise (fun r1 r2 => ∀ c ∈ r1.cells, c ∉ r2.cells) newRegs ∧
      (∀ p ∈ pending, p ∈ v ∨ ∃ r ∈ newRegs, p ∈ r.cells) := by
  intro pending
  induction pending with
  | nil =>
    intro v regs _
    exact ⟨[], by simp [findRegionsAux], by simp, by simp, List.Pairwise.nil,
      by simp⟩
  | cons c rest ih =>
    intro v regs hbounds
    by_cases hcv : c ∈ v
    · obtain ⟨newRegs, heq, h1, h2, h3, h4⟩ := ih v regs
        (fun p hp => hbounds p (List.mem_cons_of_mem c hp))
      refine ⟨newRegs, ?_, h1, h2, h3, ?_⟩
      · rw [← heq]
        simp only [findRegionsAux, if_pos hcv]
      · intro p hp
        rcases List.mem_cons.mp hp with hp1 | hp2
        · exact Or.inl (hp1 ▸ hcv)
        · exact h4 p hp2
    · obtain ⟨Δ, hΔ1, hΔ2, hΔ3, hΔ4⟩ :=
        bfsVisit_delta g (gridAt g c.1 c.2) fuel (insert c v) [c] [c]
      set ch := gridAt g c.1 c.2 with hchdef
      set st := bfsVisit g ch fuel (insert c v) [c] [c] with hstdef
      have hcells : st.2.1 = c :: Δ := hΔ2
      have hvis : st.1 = v ∪ (c :: Δ).toFinset := by
        rw [hΔ1, List.toFinset_cons, Finset.union_insert, Finset.insert_union]
      have hcbounds := hbounds c (List.mem_cons_self c rest)
      have hrcells : ∀ m ∈ c :: Δ, inBounds g m.1 m.2 ∧
          gridAt g m.1 m.2 = ch := by
        intro m hm
        rcases List.mem_cons.mp hm with hm1 | hm2
        · subst hm1
          exact ⟨hcbounds, rfl⟩
        · exact ⟨(hΔ4 m hm2).2.1, (hΔ4 m hm2).2.2⟩
      have hrnodup : (c :: Δ).Nodup := by
        refine List.nodup_cons.mpr ⟨?_, hΔ3⟩
        intro hc
        exact (hΔ4 c hc).1 (Finset.mem_insert_self c v)
      have hrnotv : ∀ m ∈ c :: Δ, m ∉ v := by
        intro m hm
        rcases List.mem_cons.mp hm with hm1 | hm2
        · exact hm1 ▸ hcv
        · exact fun hmv => (hΔ4 m hm2).1 (Finset.mem_insert_of_mem hmv)
      obtain ⟨newRegs₁, heq₁, h1₁, h2₁, h3₁, h4₁⟩ :=
        ih st.1 (regs ++ [⟨st.2.1, ch⟩])
          (fun p hp => hbounds p (List.mem_cons_of_mem c hp))
      refine ⟨⟨st.2.1, ch⟩ :: newRegs₁, ?_, ?_, ?_, ?_, ?_⟩
      · have hunf : findRegionsAux g fuel (c :: rest) v regs =
            findRegionsAux g fuel rest st.1 (regs ++ [⟨st.2.1, ch⟩]) := by
          simp only [findRegionsAux, if_neg hcv]
        rw [hunf, heq₁, List.append_assoc]
        rfl
      · intro r hr
        rcases List.mem_cons.mp hr with hr1 | hr2
        · subst hr1
          refine ⟨by rw [hcells]; simp, by rw [hcells]; exact hrnodup, ?_⟩
          intro m hm
          rw [hcells] at hm
          exact hrcells m hm
        · exact h1₁ r hr2
      · intro r hr m hm
        rcases List.mem_cons.mp hr with hr1 | hr2
        · subst hr1
          rw [hcells] at hm
          exact hrnotv m hm
        · intro hmv
          exact h2₁ r hr2 m hm (hvis ▸ Finset.mem_union_left _ hmv)
      · refine List.Pairwise.cons ?_ h3₁
        intro r2 hr2 m hm hm2
        refine h2₁ r2 hr2 m hm2 ?_
        rw [hvis]
        refine Finset.mem_union_right _ ?_
        rw [List.mem_toFinset, ← hcells]
        exact hm
      · intro p hp
        rcases List.mem_cons.mp hp with hp1 | hp2
        · refine Or.inr ⟨⟨st.2.1, ch⟩, List.mem_cons_self _ _, ?_⟩
          show p ∈ st.2.1
          rw [hcells, hp1]
          exact List.mem_cons_self _ _
        · rcases h4₁ p hp2 with hpv | ⟨r, hr, hpr⟩
          · rw [hvis] at hpv
            rcases Finset.mem_union.mp hpv with hpv1 | hpv2
            · exact Or.inl hpv1
            · refine Or.inr ⟨⟨st.2.1, ch⟩, List.mem_cons_self _ _, ?_⟩
              rw [hcells]
              exact List.mem_toFinset.mp hpv2
          · exact Or.inr ⟨r, List.mem_cons_of_mem _ hr, hpr⟩

theorem gridAt_isSome_of_wf {g : GridData} (hwf : WellFormed g) {x y : Int}
    (hb : inBounds g x y) : ∃ sym : Char, gridAt g x y = some sym := by
  obtain ⟨h1, h2, h3, h4⟩ := hb
  obtain ⟨hh, hrows⟩ := hwf
  have hylt : y.toNat < g.grid.length := by omega
  have hrow : g.grid.get? y.toNat = some (g.grid.get ⟨y.toNat, hylt⟩) :=
    List.get?_eq_get hylt
  have hmem : g.grid.get ⟨y.toNat, hylt⟩ ∈ g.grid := List.get_mem g.grid y.toNat hylt
  have hlen : (g.grid.get ⟨y.toNat, hylt⟩).length = g.width := hrows _ hmem
  have hxlt : x.toNat < (g.grid.get ⟨y.toNat, hylt⟩).length := by omega
  refine ⟨(g.grid.get ⟨y.toNat, hylt⟩).get ⟨x.toNat, hxlt⟩, ?_⟩
  rw [gridAt, if_pos ⟨h1, h3⟩, hrow]
  exact List.get?_eq_get hxlt

/-! ### C2: regions partition the grid -/

/-- Claim C2: for every well-formed grid, the regions produced by the
flood-fill segmentation partition the grid's cells: their cell sets are
pairwise disjoint, and the union of all regions' cells is exactly the set of
in-bounds cells. -/
theorem regions_partition (g : GridData) (hwf : WellFormed g) :
    List.Pairwise (fun r1 r2 => ∀ c ∈ r1.cells, c ∉ r2.cells)
      (findRegions g) ∧
    ((findRegions g).flatMap Region.cells).toFinset = allCells g := by
  obtain ⟨newRegs, heq, h1, _, h3, h4⟩ :=
    findRegionsAux_spec g (bfsFuel g) (rowMajor g) ∅ []
      (fun p hp => (mem_rowMajor g p).mp hp)
  have hfr : findRegions g = newRegs := by
    rw [findRegions, findRegionsWith, heq, List.nil_append]
  rw [hfr]
  refine ⟨h3, ?_⟩
  ext c
  rw [List.mem_toFinset, List.mem_flatMap, mem_allCells]
  constructor
  · rintro ⟨r, hr, hcr⟩
    exact ((h1 r hr).2.2 c hcr).1
  · intro hc
    rcases h4 c ((mem_rowMajor g c).mpr hc) with hfalse | ⟨r, hr, hcr⟩
    · exact absurd hfalse (Finset.not_mem_empty c)
    · exact ⟨r, hr, hcr⟩

/-! ### C10: region cell lists are duplicate-free, in bounds, same symbol -/

/-- Claim C10: every region produced by segmentation has a duplicate-free
cell list (so its area is the list length), every cell in it is in bounds,
and on a well-formed grid the region's recorded symbol is `some ch` with every
member cell holding exactly that symbol in the grid. -/
theorem regions_cells_valid (g : GridData) (hwf : WellFormed g) :
    ∀ r ∈ findRegions g, r.cells.Nodup ∧
      (∀ c ∈ r.cells, inBounds g c.1 c.2) ∧
      ∃ ch : Char, r.char = some ch ∧
        ∀ c ∈ r.cells, gridAt g c.1 c.2 = some ch := by
  obtain ⟨newRegs, heq, h1, _, _, _⟩ :=
    findRegionsAux_spec g (bfsFuel g) (rowMajor g) ∅ []
      (fun p hp => (mem_rowMajor g p).mp hp)
  have hfr : findRegions g = newRegs := by
    rw [findRegions, findRegionsWith, heq, List.nil_append]
  rw [hfr]
  intro r hr
  obtain ⟨hne, hnd, hcells⟩ := h1 r hr
  refine ⟨hnd, fun c hc => (hcells c hc).1, ?_⟩
  obtain ⟨c₀, hc₀⟩ := List.exists_mem_of_ne_nil r.cells hne
  obtain ⟨hb₀, hch₀⟩ := hcells c₀ hc₀
  obtain ⟨sym, hsym⟩ := gridAt_isSome_of_wf hwf hb₀
  refine ⟨sym, ?_, ?_⟩
  · rw [← hch₀, hsym]
  · intro c hc
    rw [(hcells c hc).2, ← hch₀, hsym]

/-- Witness for C2 at the concrete 2×2 grid `"ab\nba"`. -/
theorem regions_partition_witness :
    WellFormed (parseInput "ab\nba") ∧
    (List.Pairwise (fun r1 r2 => ∀ c ∈ r1.cells, c ∉ r2.cells)
      (findRegions (parseInput "ab\nba")) ∧
    ((findRegions (parseInput "ab\nba")).flatMap Region.cells).toFinset =
      allCells (parseInput "ab\nba")) :=
  ⟨by decide, regions_partition (parseInput "ab\nba") (by decide)⟩

/-- Witness for C10 at the concrete 2×2 grid `"ab\nba"`. -/
theorem regions_cells_valid_witness :
    WellFormed (parseInput "ab\nba") ∧
    (∀ r ∈ findRegions (parseInput "ab\nba"), r.cells.Nodup ∧
      (∀ c ∈ r.cells, inBounds (parseInput "ab\nba") c.1 c.2) ∧
      ∃ ch : Char, r.char = some ch ∧
        ∀ c ∈ r.cells, gridAt (parseInput "ab\nba") c.1 c.2 = some ch) :=
  ⟨by decide, regions_cells_valid (parseInput "ab\nba") (by decide)⟩

/-! ### Perimeter as edge totals (C9) and the area identity (C3) -/

theorem filter_split_length {α : Type} (l : List α) (p : α → Bool) :
    (l.filter p).length + (l.filter (fun a => ! p a)).length = l.length := by
  induction l with
  | nil => rfl
  | cons a l ih =>
    cases ha : p a <;> simp [List.filter_cons, ha, ← ih] <;> omega

theorem findRegions_invariant (g : GridData) :
    ∀ r ∈ findRegions g, r.cells ≠ [] ∧ r.cells.Nodup ∧
      ∀ c ∈ r.cells, inBounds g c.1 c.2 ∧ gridAt g c.1 c.2 = r.char := by
  obtain ⟨newRegs, heq, h1, _, _, _⟩ :=
    findRegionsAux_spec g (bfsFuel g) (rowMajor g) ∅ []
      (fun p hp => (mem_rowMajor g p).mp hp)
  have hfr : findRegions g = newRegs := by
    rw [findRegions, findRegionsWith, heq, List.nil_append]
  rw [hfr]
  exact h1

theorem sum_map_add4 {α : Type} (l : List α) (f1 f2 f3 f4 : α → ℕ) :
    (l.map (fun c => f1 c + f2 c + f3 c + f4 c)).sum =
      (l.map f1).sum + (l.map f2).sum + (l.map f3).sum + (l.map f4).sum := by
  induction l with
  | nil => rfl
  | cons a l ih => simp [ih]; omega

theorem sum_map_indicator {α : Type} (l : List α) (p : α → Bool) :
    (l.map (fun c => if p c then 1 else 0)).sum = (l.filter p).length := by
  induction l with
  | nil => rfl
  | cons a l ih =>
    cases ha : p a <;> simp [List.filter_cons, ha, ih] <;> omega

theorem perimeter_cell_split (g : GridData) (r : Region) (c : Cell)
    (hin : ∀ m ∈ r.cells, inBounds g m.1 m.2) :
    (directions.filter (fun d =>
      decide (¬ inBounds g (c.1 + d.1) (c.2 + d.2) ∨
        (c.1 + d.1, c.2 + d.2) ∉ r.cells))).length =
    ((if decide ((c.1, c.2 - 1) ∉ r.cells) then 1 else 0) +
      (if decide ((c.1 + 1, c.2) ∉ r.cells) then 1 else 0) +
      (if decide ((c.1, c.2 + 1) ∉ r.cells) then 1 else 0) +
      (if decide ((c.1 - 1, c.2) ∉ r.cells) then 1 else 0)) := by
  have hmem : ∀ m : Cell, (¬ inBounds g m.1 m.2 ∨ m ∉ r.cells) ↔
      m ∉ r.cells := by
    intro m
    constructor
    · rintro (h | h)
      · exact fun hmm => h (hin m hmm)
      · exact h
    · exact Or.inr
  have e1 : (c.2 + (-1 : Int)) = c.2 - 1 := by omega
  have e4 : (c.1 + (-1 : Int)) = c.1 - 1 := by omega
  simp only [directions, List.filter_cons, List.filter_nil, add_zero, e1, e4]
  simp only [hmem (c.1, c.2 - 1), hmem (c.1 + 1, c.2), hmem (c.1, c.2 + 1),
    hmem (c.1 - 1, c.2)]
  by_cases m1 : (c.1, c.2 - 1) ∈ r.cells <;>
    by_cases m2 : (c.1 + 1, c.2) ∈ r.cells <;>
    by_cases m3 : (c.1, c.2 + 1) ∈ r.cells <;>
    by_cases m4 : (c.1 - 1, c.2) ∈ r.cells <;>
    simp [m1, m2, m3, m4]

theorem perimeter_eq_edges (g : GridData) (r : Region)
    (hin : ∀ c ∈ r.cells, inBounds g c.1 c.2) :
    computePerimeter g r =
      (leftEdges r).length + (rightEdges r).length +
      (topEdges r).length + (bottomEdges r).length := by
  unfold computePerimeter
  rw [List.map_congr_left (fun c _ => perimeter_cell_split g r c hin)]
  rw [sum_map_add4, sum_map_indicator, sum_map_indicator, sum_map_indicator,
    sum_map_indicator]
  show (topEdges r).length + (rightEdges r).length + (bottomEdges r).length +
      (leftEdges r).length = _
  omega

/-- Claim C9: for every region produced by segmentation, the total number of
boundary edges collected across the four orientations by the side-counting
routine (membership-only test) equals the perimeter computed by
`computePerimeter` (bounds-plus-membership test): since all region cells are
in bounds, a neighbour that is a member is never out of bounds, so the two
boundary tests coincide. -/
theorem edge_totals_eq_perimeter (g : GridData) :
    ∀ r ∈ findRegions g,
      (leftEdges r).length + (rightEdges r).length +
      (topEdges r).length + (bottomEdges r).length = computePerimeter g r :=
  fun r hr =>
    (perimeter_eq_edges g r
      (fun c hc => ((findRegions_invariant g r hr).2.2 c hc).1)).symm

/-- Witness for C9 at the grid `"ab\nba"` and its first region. -/
theorem edge_totals_eq_perimeter_witness :
    (⟨[((0 : Int), (0 : Int))], some 'a'⟩ : Region) ∈
      findRegions (parseInput "ab\nba") ∧
    (leftEdges ⟨[((0 : Int), (0 : Int))], some 'a'⟩).length +
      (rightEdges ⟨[((0 : Int), (0 : Int))], some 'a'⟩).length +
      (topEdges ⟨[((0 : Int), (0 : Int))], some 'a'⟩).length +
      (bottomEdges ⟨[((0 : Int), (0 : Int))], some 'a'⟩).length =
      computePerimeter (parseInput "ab\nba")
        ⟨[((0 : Int), (0 : Int))], some 'a'⟩ :=
  ⟨by decide, edge_totals_eq_perimeter (parseInput "ab\nba") _ (by decide)⟩

theorem cellAdjacent_iff (a b : Cell) :
    cellAdjacent a b ↔
      (b = (a.1, a.2 - 1) ∨ b = (a.1 + 1, a.2) ∨
        b = (a.1, a.2 + 1) ∨ b = (a.1 - 1, a.2)) := by
  obtain ⟨ax, ay⟩ := a
  obtain ⟨bx, by'⟩ := b
  simp only [cellAdjacent, Prod.mk.injEq]
  omega

theorem card_filter_adjacent (S : Finset Cell) (a : Cell) :
    (S.filter (fun b => cellAdjacent a b)).card =
      ((if (a.1, a.2 - 1) ∈ S then 1 else 0) +
        (if (a.1 + 1, a.2) ∈ S then 1 else 0) +
        (if (a.1, a.2 + 1) ∈ S then 1 else 0) +
        (if (a.1 - 1, a.2) ∈ S then 1 else 0)) := by
  have hcongr : S.filter (fun b => cellAdjacent a b) =
      S.filter (fun b => b = (a.1, a.2 - 1) ∨ b = (a.1 + 1, a.2) ∨
        b = (a.1, a.2 + 1) ∨ b = (a.1 - 1, a.2)) := by
    refine Finset.filter_congr (fun b _ => ?_)
    exact cellAdjacent_iff a b
  rw [hcongr, Finset.card_filter]
  have hpt : ∀ b ∈ S,
      (if b = (a.1, a.2 - 1) ∨ b = (a.1 + 1, a.2) ∨
          b = (a.1, a.2 + 1) ∨ b = (a.1 - 1, a.2) then 1 else 0) =
        ((if b = (a.1, a.2 - 1) then 1 else 0) +
          (if b = (a.1 + 1, a.2) then 1 else 0) +
          (if b = (a.1, a.2 + 1) then 1 else 0) +
          (if b = (a.1 - 1, a.2) then (1 : ℕ) else 0)) := by
    intro b _
    obtain ⟨ax, ay⟩ := a
    obtain ⟨bx, by'⟩ := b
    simp only [Prod.mk.injEq]
    by_cases h1 : bx = ax ∧ by' = ay - 1 <;>
      by_cases h2 : bx = ax + 1 ∧ by' = ay <;>
      by_cases h3 : bx = ax ∧ by' = ay + 1 <;>
      by_cases h4 : bx = ax - 1 ∧ by' = ay <;>
      simp [h1, h2, h3, h4] <;> omega
  rw [Finset.sum_congr rfl hpt]
  rw [Finset.sum_add_distrib, Finset.sum_add_distrib, Finset.sum_add_distrib]
  rw [Finset.sum_ite_eq' S (a.1, a.2 - 1) (fun _ => 1),
    Finset.sum_ite_eq' S (a.1 + 1, a.2) (fun _ => 1),
    Finset.sum_ite_eq' S (a.1, a.2 + 1) (fun _ => 1),
    Finset.sum_ite_eq' S (a.1 - 1, a.2) (fun _ => 1)]

theorem ordered_adjacent_card (S : Finset Cell) :
    ((S ×ˢ S).filter (fun p : Cell × Cell => cellAdjacent p.1 p.2)).card =
      (S.filter (fun a => (a.1, a.2 - 1) ∈ S)).card +
      (S.filter (fun a => (a.1 + 1, a.2) ∈ S)).card +
      (S.filter (fun a => (a.1, a.2 + 1) ∈ S)).card +
      (S.filter (fun a => (a.1 - 1, a.2) ∈ S)).card := by
  rw [Finset.card_filter, Finset.sum_product]
  have hpt : ∀ a ∈ S,
      (∑ b ∈ S, if cellAdjacent a b then (1 : ℕ) else 0) =
        ((if (a.1, a.2 - 1) ∈ S then 1 else 0) +
          (if (a.1 + 1, a.2) ∈ S then 1 else 0) +
          (if (a.1, a.2 + 1) ∈ S then 1 else 0) +
          (if (a.1 - 1, a.2) ∈ S then 1 else 0)) := by
    intro a _
    rw [← Finset.card_filter]
    exact card_filter_adjacent S a
  rw [Finset.sum_congr rfl hpt]
  rw [Finset.sum_add_distrib, Finset.sum_add_distrib, Finset.sum_add_distrib]
  rw [← Finset.card_filter, ← Finset.card_filter, ← Finset.card_filter,
    ← Finset.card_filter]

theorem card_shift_vert (S : Finset Cell) :
    (S.filter (fun a => (a.1, a.2 - 1) ∈ S)).card =
      (S.filter (fun a => (a.1, a.2 + 1) ∈ S)).card := by
  refine Finset.card_bij' (fun a _ => (a.1, a.2 - 1))
    (fun b _ => (b.1, b.2 + 1)) ?_ ?_ ?_ ?_
  · intro a ha
    obtain ⟨ha1, ha2⟩ := Finset.mem_filter.mp ha
    refine Finset.mem_filter.mpr ⟨ha2, ?_⟩
    have : ((a.1, a.2 - 1).1, (a.1, a.2 - 1).2 + 1) = a := by
      rw [Prod.ext_iff]
      constructor <;> simp <;> omega
    rw [this]
    exact ha1
  · intro b hb
    obtain ⟨hb1, hb2⟩ := Finset.mem_filter.mp hb
    refine Finset.mem_filter.mpr ⟨hb2, ?_⟩
    have : ((b.1, b.2 + 1).1, (b.1, b.2 + 1).2 - 1) = b := by
      rw [Prod.ext_iff]
      constructor <;> simp <;> omega
    rw [this]
    exact hb1
  · intro a _
    rw [Prod.ext_iff]
    constructor <;> simp <;> omega
  · intro b _
    rw [Prod.ext_iff]
    constructor <;> simp <;> omega

theorem card_shift_horiz (S : Finset Cell) :
    (S.filter (fun a => (a.1 - 1, a.2) ∈ S)).card =
      (S.filter (fun a => (a.1 + 1, a.2) ∈ S)).card := by
  refine Finset.card_bij' (fun a _ => (a.1 - 1, a.2))
    (fun b _ => (b.1 + 1, b.2)) ?_ ?_ ?_ ?_
  · intro a ha
    obtain ⟨ha1, ha2⟩ := Finset.mem_filter.mp ha
    refine Finset.mem_filter.mpr ⟨ha2, ?_⟩
    have : ((a.1 - 1, a.2).1 + 1, (a.1 - 1, a.2).2) = a := by
      rw [Prod.ext_iff]
      constructor <;> simp <;> omega
    rw [this]
    exact ha1
  · intro b hb
    obtain ⟨hb1, hb2⟩ := Finset.mem_filter.mp hb
    refine Finset.mem_filter.mpr ⟨hb2, ?_⟩
    have : ((b.1 + 1, b.2).1 - 1, (b.1 + 1, b.2).2) = b := by
      rw [Prod.ext_iff]
      constructor <;> simp <;> omega
    rw [this]
    exact hb1
  · intro a _
    rw [Prod.ext_iff]
    constructor <;> simp <;> omega
  · intro b _
    rw [Prod.ext_iff]
    constructor <;> simp <;> omega

theorem edge_length_split (cells : List Cell) (hnd : cells.Nodup)
    (nb : Cell → Cell) :
    (cells.filter (fun c => decide (nb c ∉ cells))).length +
      (cells.toFinset.filter (fun a => nb a ∈ cells.toFinset)).card =
      cells.length := by
  have hsplit := filter_split_length cells (fun c => decide (nb c ∉ cells))
  have hcongr : cells.filter (fun c => ! decide (nb c ∉ cells)) =
      cells.filter (fun c => decide (nb c ∈ cells)) := by
    refine List.filter_congr (fun c _ => ?_)
    simp [decide_not]
  have hlen : (cells.filter (fun c => decide (nb c ∈ cells))).length =
      (cells.toFinset.filter (fun a => nb a ∈ cells.toFinset)).card := by
    have h1 : (cells.filter (fun c => decide (nb c ∈ cells))).length =
        (cells.filter (fun c => decide (nb c ∈ cells))).dedup.length := by
      rw [List.dedup_eq_self.mpr (hnd.filter _)]
    have h2 : (cells.filter (fun c => decide (nb c ∈ cells))).toFinset =
        cells.toFinset.filter (fun a => decide (nb a ∈ cells) = true) := by
      rw [List.toFinset_filter]
    have h3 : cells.toFinset.filter (fun a => decide (nb a ∈ cells) = true) =
        cells.toFinset.filter (fun a => nb a ∈ cells.toFinset) := by
      refine Finset.filter_congr (fun a _ => ?_)
      rw [decide_eq_true_eq, List.mem_toFinset]
    rw [h1, ← List.card_toFinset, h2, h3]
  rw [hcongr, hlen] at hsplit
  exact hsplit

/-- Claim C3: for every region produced by segmentation, the computed
perimeter equals `4·area − 2·internalAdjacentPairs`, where the internal
adjacent pairs are the unordered pairs of region cells that are 4-neighbours
of each other (also stated in overflow-free additive form). -/
theorem perimeter_area_identity (g : GridData) :
    ∀ r ∈ findRegions g,
      computePerimeter g r =
        4 * r.cells.length - 2 * internalAdjacentPairs r.cells.toFinset ∧
      computePerimeter g r + 2 * internalAdjacentPairs r.cells.toFinset =
        4 * r.cells.length := by
  intro r hr
  obtain ⟨hne, hnd, hprops⟩ := findRegions_invariant g r hr
  have hin : ∀ c ∈ r.cells, inBounds g c.1 c.2 := fun c hc => (hprops c hc).1
  have hper := perimeter_eq_edges g r hin
  have hT := edge_length_split r.cells hnd (fun c => (c.1, c.2 - 1))
  have hR := edge_length_split r.cells hnd (fun c => (c.1 + 1, c.2))
  have hB := edge_length_split r.cells hnd (fun c => (c.1, c.2 + 1))
  have hL := edge_length_split r.cells hnd (fun c => (c.1 - 1, c.2))
  have hord := ordered_adjacent_card r.cells.toFinset
  have hv := card_shift_vert r.cells.toFinset
  have hh := card_shift_horiz r.cells.toFinset
  have hint : internalAdjacentPairs r.cells.toFinset =
      ((r.cells.toFinset ×ˢ r.cells.toFinset).filter
        (fun p : Cell × Cell => cellAdjacent p.1 p.2)).card / 2 := rfl
  have htE : (topEdges r).length =
      (r.cells.filter (fun c => decide ((c.1, c.2 - 1) ∉ r.cells))).length :=
    rfl
  have hrE : (rightEdges r).length =
      (r.cells.filter (fun c => decide ((c.1 + 1, c.2) ∉ r.cells))).length :=
    rfl
  have hbE : (bottomEdges r).length =
      (r.cells.filter (fun c => decide ((c.1, c.2 + 1) ∉ r.cells))).length :=
    rfl
  have hlE : (leftEdges r).length =
      (r.cells.filter (fun c => decide ((c.1 - 1, c.2) ∉ r.cells))).length :=
    rfl
  rw [htE, hrE, hbE, hlE] at hper
  constructor <;> omega

/-- Witness for C3 at the grid `"aa\nba"` and its L-shaped first region. -/
theorem perimeter_area_identity_witness :
    (⟨[((0 : Int), (0 : Int)), ((1 : Int), (0 : Int)), ((1 : Int), (1 : Int))],
        some 'a'⟩ : Region) ∈ findRegions (parseInput "aa\nba") ∧
    (computePerimeter (parseInput "aa\nba")
        ⟨[((0 : Int), (0 : Int)), ((1 : Int), (0 : Int)),
          ((1 : Int), (1 : Int))], some 'a'⟩ =
      4 * ([((0 : Int), (0 : Int)), ((1 : Int), (0 : Int)),
          ((1 : Int), (1 : Int))] : List Cell).length -
        2 * internalAdjacentPairs
          ([((0 : Int), (0 : Int)), ((1 : Int), (0 : Int)),
            ((1 : Int), (1 : Int))] : List Cell).toFinset ∧
    computePerimeter (parseInput "aa\nba")
        ⟨[((0 : Int), (0 : Int)), ((1 : Int), (0 : Int)),
          ((1 : Int), (1 : Int))], some 'a'⟩ +
        2 * internalAdjacentPairs
          ([((0 : Int), (0 : Int)), ((1 : Int), (0 : Int)),
            ((1 : Int), (1 : Int))] : List Cell).toFinset =
      4 * ([((0 : Int), (0 : Int)), ((1 : Int), (0 : Int)),
          ((1 : Int), (1 : Int))] : List Cell).length) :=
  ⟨by decide, perimeter_area_identity (parseInput "aa\nba") _ (by decide)⟩

/-! ### C7: totality of segmentation -/

theorem allCells_card (g : GridData) :
    (allCells g).card = g.width * g.height := by
  rw [allCells, Finset.card_image_of_injective _ (fun p q hpq => ?_),
    Finset.card_product, Finset.card_range, Finset.card_range]
  obtain ⟨p1, p2⟩ := p
  obtain ⟨q1, q2⟩ := q
  rw [Prod.mk.injEq] at hpq ⊢
  omega

theorem bfsVisit_empty_queue (g : GridData) (ch : Option Char) (k : ℕ)
    (v : Finset Cell) (cs : List Cell) :
    bfsVisit g ch k v cs [] = (v, cs, []) := by
  cases k <;> rfl

theorem bfsVisit_fuel_stable (g : GridData) (ch : Option Char) :
    ∀ (fuel : ℕ) (v : Finset Cell) (cs q : List Cell),
    (allCells g \ v).card + q.length ≤ fuel → ∀ k,
    bfsVisit g ch (fuel + k) v cs q = bfsVisit g ch fuel v cs q := by
  intro fuel
  induction fuel with
  | zero =>
    intro v cs q hle k
    have hq : q = [] := by
      cases q with
      | nil => rfl
      | cons a q => simp at hle
    subst hq
    rw [bfsVisit_empty_queue, bfsVisit_empty_queue]
  | succ fuel ih =>
    intro v cs q hle k
    cases q with
    | nil => rw [bfsVisit_empty_queue, bfsVisit_empty_queue]
    | cons c q =>
      obtain ⟨Δ₀, heq0, hnd0, hprop0, _⟩ :=
        bfsFold_spec g ch c directions v cs q
      have hsubΔ : Δ₀.toFinset ⊆ allCells g \ v := by
        intro m hm
        rw [List.mem_toFinset] at hm
        obtain ⟨h1, h2, _⟩ := hprop0 m hm
        exact Finset.mem_sdiff.mpr ⟨(mem_allCells g m).mpr h2, h1⟩
      have hlen : Δ₀.toFinset.card = Δ₀.length := by
        rw [List.card_toFinset, List.dedup_eq_self.mpr hnd0]
      have hset : allCells g \ (v ∪ Δ₀.toFinset) =
          (allCells g \ v) \ Δ₀.toFinset := by
        ext m
        simp only [Finset.mem_sdiff, Finset.mem_union]
        tauto
      have hle' : (allCells g \ (v ∪ Δ₀.toFinset)).card +
          (q ++ Δ₀).length ≤ fuel := by
        rw [hset, Finset.card_sdiff hsubΔ, hlen, List.length_append]
        have := Finset.card_le_card hsubΔ
        simp only [List.length_cons] at hle
        omega
      have hstep1 : bfsVisit g ch (fuel + 1 + k) v cs (c :: q) =
          bfsVisit g ch (fuel + k) (v ∪ Δ₀.toFinset) (cs ++ Δ₀) (q ++ Δ₀) := by
        rw [show fuel + 1 + k = (fuel + k) + 1 from by omega]
        simp only [bfsVisit, heq0]
      have hstep2 : bfsVisit g ch (fuel + 1) v cs (c :: q) =
          bfsVisit g ch fuel (v ∪ Δ₀.toFinset) (cs ++ Δ₀) (q ++ Δ₀) := by
        simp only [bfsVisit, heq0]
      rw [hstep1, hstep2, ih _ _ _ hle' k]

theorem findRegionsAux_fuel_stable (g : GridData) (k : ℕ) :
    ∀ (pending : List Cell) (v : Finset Cell) (regs : List Region),
    findRegionsAux g (bfsFuel g + k) pending v regs =
      findRegionsAux g (bfsFuel g) pending v regs := by
  intro pending
  induction pending with
  | nil => intro v regs; rfl
  | cons c rest ih =>
    intro v regs
    by_cases hcv : c ∈ v
    · simp only [findRegionsAux, if_pos hcv]
      exact ih v regs
    · simp only [findRegionsAux, if_neg hcv]
      have hμ : (allCells g \ insert c v).card + [c].length ≤ bfsFuel g := by
        have h1 : (allCells g \ insert c v).card ≤ (allCells g).card :=
          Finset.card_le_card (Finset.sdiff_subset)
      
        rw [allCells_card] at h1
        simp only [List.length_cons, List.length_nil]
        rw [bfsFuel]
        omega
      rw [bfsVisit_fuel_stable g _ (bfsFuel g) (insert c v) [c] [c] hμ k]
      exact ih _ _

theorem rowMajor_nodup (g : GridData) : (rowMajor g).Nodup := by
  rw [rowMajor, List.nodup_flatMap]
  constructor
  · intro y _
    refine (List.nodup_range _).map ?_
    intro a b hab
    rw [Prod.mk.injEq] at hab
    omega
  · rw [List.pairwise_iff_forall_sublist]
    intro y y' hsub
    have hne : y ≠ y' := by
      intro hc
      subst hc
      exact absurd (List.Sublist.nodup hsub (List.nodup_range _)) (by simp)
    rw [Function.onFun, List.disjoint_left]
    intro p hp hp'
    rw [List.mem_map] at hp hp'
    obtain ⟨x, _, hx⟩ := hp
    obtain ⟨x', _, hx'⟩ := hp'
    rw [← hx', Prod.mk.injEq] at hx
    exact hne (by omega)

theorem bfsVisit_singleton (g : GridData) (ch : Option Char) (c : Cell)
    (v : Finset Cell) (fuel : ℕ)
    (hns : ∀ d ∈ directions,
      ¬(inBounds g (c.1 + d.1) (c.2 + d.2) ∧
        (c.1 + d.1, c.2 + d.2) ∉ insert c v ∧
        gridAt g (c.1 + d.1) (c.2 + d.2) = ch)) :
    bfsVisit g ch (fuel + 1) (insert c v) [c] [c] =
      (insert c v, [c], []) := by
  have hfold : ∀ dirs : List (Int × Int), (∀ d ∈ dirs,
      ¬(inBounds g (c.1 + d.1) (c.2 + d.2) ∧
        (c.1 + d.1, c.2 + d.2) ∉ insert c v ∧
        gridAt g (c.1 + d.1) (c.2 + d.2) = ch)) →
      dirs.foldl (bfsStep g ch c) (insert c v, [c], ([] : List Cell)) =
        (insert c v, [c], []) := by
    intro dirs
    induction dirs with
    | nil => intro _; rfl
    | cons d dirs ih =>
      intro hd
      rw [List.foldl_cons]
      have hstep : bfsStep g ch c (insert c v, [c], ([] : List Cell)) d =
          (insert c v, [c], []) := by
        simp only [bfsStep, if_neg (hd d (List.mem_cons_self d dirs))]
      rw [hstep]
      exact ih (fun d' hd' => hd d' (List.mem_cons_of_mem d hd'))
  simp only [bfsVisit, hfold directions hns]
  exact bfsVisit_empty_queue g ch fuel _ _

theorem findRegionsAux_distinct (g : GridData)
    (hdist : ∀ c c' : Cell, inBounds g c.1 c.2 → inBounds g c'.1 c'.2 →
      c ≠ c' → gridAt g c.1 c.2 ≠ gridAt g c'.1 c'.2) :
    ∀ (pending : List Cell) (v : Finset Cell) (regs : List Region),
    pending.Nodup → (∀ p ∈ pending, inBounds g p.1 p.2) →
    (∀ p ∈ pending, p ∉ v) →
    findRegionsAux g (bfsFuel g) pending v regs =
      regs ++ pending.map (fun p => ⟨[p], gridAt g p.1 p.2⟩) := by
  intro pending
  induction pending with
  | nil => intro v regs _ _ _; simp [findRegionsAux]
  | cons c rest ih =>
    intro v regs hnd hbound hnv
    have hcv : c ∉ v := hnv c (List.mem_cons_self c rest)
    simp only [findRegionsAux, if_neg hcv]
    have hns : ∀ d ∈ directions,
        ¬(inBounds g (c.1 + d.1) (c.2 + d.2) ∧
          (c.1 + d.1, c.2 + d.2) ∉ insert c v ∧
          gridAt g (c.1 + d.1) (c.2 + d.2) = gridAt g c.1 c.2) := by
      rintro d _ ⟨hb, hnin, heq⟩
      have hne : (c.1 + d.1, c.2 + d.2) ≠ c := by
        intro hc
        apply hnin
        rw [hc]
        exact Finset.mem_insert_self c v
      exact hdist (c.1 + d.1, c.2 + d.2) c hb
        (hbound c (List.mem_cons_self c rest)) hne heq
    have hbfs : bfsVisit g (gridAt g c.1 c.2) (bfsFuel g) (insert c v) [c] [c]
        = (insert c v, [c], []) := by
      rw [bfsFuel]
      exact bfsVisit_singleton g _ c v _ hns
    rw [hbfs]
    have hres := ih (insert c v) (regs ++ [⟨[c], gridAt g c.1 c.2⟩])
      (List.nodup_cons.mp hnd).2
      (fun p hp => hbound p (List.mem_cons_of_mem c hp))
      (fun p hp => by
        rw [Finset.mem_insert]
        push_neg
        exact ⟨fun hc => (List.nodup_cons.mp hnd).1 (hc ▸ hp),
          hnv p (List.mem_cons_of_mem c hp)⟩)
    rw [hres, List.map_cons, List.append_assoc]
    rfl

theorem findRegionsAux_all_visited (g : GridData) (fuel : ℕ) :
    ∀ (pending : List Cell) (v : Finset Cell) (regs : List Region),
    (∀ p ∈ pending, p ∈ v) →
    findRegionsAux g fuel pending v regs = regs := by
  intro pending
  induction pending with
  | nil => intro v regs _; rfl
  | cons c rest ih =>
    intro v regs hall
    simp only [findRegionsAux, if_pos (hall c (List.mem_cons_self c rest))]
    exact ih v regs (fun p hp => hall p (List.mem_cons_of_mem c hp))

theorem findRegions_uniform (g : GridData) (c0 : Char) (hw : 0 < g.width)
    (hh : 0 < g.height)
    (huni : ∀ x y : Int, inBounds g x y → gridAt g x y = some c0) :
    ∃ cells, findRegions g = [⟨cells, some c0⟩] ∧
      cells.toFinset = allCells g := by
  have hb00 : inBounds g 0 0 := by
    refine ⟨le_refl 0, ?_, le_refl 0, ?_⟩ <;> omega
  have hrm0 : ((0 : Int), (0 : Int)) ∈ rowMajor g := (mem_rowMajor g _).mpr hb00
  obtain ⟨p₀, rest, hrm⟩ : ∃ p₀ rest, rowMajor g = p₀ :: rest := by
    cases hrmc : rowMajor g with
    | nil => rw [hrmc] at hrm0; exact absurd hrm0 (List.not_mem_nil _)
    | cons a l => exact ⟨a, l, rfl⟩
  have hp₀b : inBounds g p₀.1 p₀.2 :=
    (mem_rowMajor g p₀).mp (hrm ▸ List.mem_cons_self p₀ rest)
  have hchv : gridAt g p₀.1 p₀.2 = some c0 := huni p₀.1 p₀.2 hp₀b
  set ch := gridAt g p₀.1 p₀.2 with hchdef
  set st := bfsVisit g ch (bfsFuel g) (insert p₀ ∅) [p₀] [p₀] with hstdef
  obtain ⟨Δ, hΔ1, hΔ2, hΔ3, hΔ4⟩ :=
    bfsVisit_delta g ch (bfsFuel g) (insert p₀ ∅) [p₀] [p₀]
  have hfront : ∀ a ∈ (insert p₀ ∅ : Finset Cell), a ∈ [p₀] ∨
      ∀ d ∈ directions,
        (inBounds g (a.1 + d.1) (a.2 + d.2) ∧
          gridAt g (a.1 + d.1) (a.2 + d.2) = ch) →
        (a.1 + d.1, a.2 + d.2) ∈ (insert p₀ ∅ : Finset Cell) := by
    intro a ha
    rw [Finset.mem_insert] at ha
    rcases ha with ha | ha
    · exact Or.inl (ha ▸ List.mem_cons_self p₀ [])
    · exact absurd ha (Finset.not_mem_empty a)
  have hμ : (allCells g \ insert p₀ ∅).card + [p₀].length ≤ bfsFuel g := by
    have h1 : (allCells g \ insert p₀ ∅).card ≤ (allCells g).card :=
      Finset.card_le_card Finset.sdiff_subset
    rw [allCells_card] at h1
    rw [bfsFuel]
    simp only [List.length_cons, List.length_nil]
    omega
  obtain ⟨hqnil, hclosed⟩ :=
    bfsVisit_complete g ch (bfsFuel g) (insert p₀ ∅) [p₀] [p₀] hfront hμ
  have hp₀st : p₀ ∈ st.1 := by
    rw [hΔ1]
    exact Finset.mem_union_left _ (Finset.mem_insert_self p₀ ∅)
  have hall : ∀ k : ℕ, ∀ x y : Int, inBounds g x y →
      ((x - p₀.1).natAbs + (y - p₀.2).natAbs) = k → (x, y) ∈ st.1 := by
    intro k
    induction k using Nat.strong_induction_on with
    | _ k ih =>
      intro x y hb hk
      by_cases hx : x = p₀.1
      · by_cases hy : y = p₀.2
        · have : (x, y) = p₀ := by
            rw [Prod.ext_iff]
            exact ⟨hx, hy⟩
          rw [this]
          exact hp₀st
        · rcases lt_or_gt_of_ne hy with hlt | hgt
          · have hb' : inBounds g x (y + 1) := by
              obtain ⟨e1, e2, e3, e4⟩ := hb
              obtain ⟨f1, f2, f3, f4⟩ := hp₀b
              exact ⟨e1, e2, by omega, by omega⟩
            have hmem := ih _ (by omega) x (y + 1) hb' rfl
            have hc := hclosed (x, y + 1) hmem (0, -1) (by simp [directions])
              ⟨by simpa using hb, by
                show gridAt g (x + 0) (y + 1 + -1) = ch
                rw [show (x + 0 : Int) = x from by omega,
                  show (y + 1 + -1 : Int) = y from by omega, hchv]
                exact huni x y hb⟩
            have : ((x, y + 1).1 + (0 : Int), (x, y + 1).2 + (-1 : Int)) =
                (x, y) := by
              rw [Prod.ext_iff]
              constructor <;> simp <;> omega
            rwa [this] at hc
          · have hb' : inBounds g x (y - 1) := by
              obtain ⟨e1, e2, e3, e4⟩ := hb
              obtain ⟨f1, f2, f3, f4⟩ := hp₀b
              exact ⟨e1, e2, by omega, by omega⟩
            have hmem := ih _ (by omega) x (y - 1) hb' rfl
            have hc := hclosed (x, y - 1) hmem (0, 1) (by simp [directions])
              ⟨by simpa using hb, by
                show gridAt g (x + 0) (y - 1 + 1) = ch
                rw [show (x + 0 : Int) = x from by omega,
                  show (y - 1 + 1 : Int) = y from by omega, hchv]
                exact huni x y hb⟩
            have : ((x, y - 1).1 + (0 : Int), (x, y - 1).2 + (1 : Int)) =
                (x, y) := by
              rw [Prod.ext_iff]
              constructor <;> simp <;> omega
            rwa [this] at hc
      · rcases lt_or_gt_of_ne hx with hlt | hgt
        · have hb' : inBounds g (x + 1) y := by
            obtain ⟨e1, e2, e3, e4⟩ := hb
            obtain ⟨f1, f2, f3, f4⟩ := hp₀b
            exact ⟨by omega, by omega, e3, e4⟩
          have hmem := ih _ (by omega) (x + 1) y hb' rfl
          have hc := hclosed (x + 1, y) hmem (-1, 0) (by simp [directions])
            ⟨by simpa using hb, by
              show gridAt g (x + 1 + -1) (y + 0) = ch
              rw [show (x + 1 + -1 : Int) = x from by omega,
                show (y + 0 : Int) = y from by omega, hchv]
              exact huni x y hb⟩
          have : ((x + 1, y).1 + (-1 : Int), (x + 1, y).2 + (0 : Int)) =
              (x, y) := by
            rw [Prod.ext_iff]
            constructor <;> simp <;> omega
          rwa [this] at hc
        · have hb' : inBounds g (x - 1) y := by
            obtain ⟨e1, e2, e3, e4⟩ := hb
            obtain ⟨f1, f2, f3, f4⟩ := hp₀b
            exact ⟨by omega, by omega, e3, e4⟩
          have hmem := ih _ (by omega) (x - 1) y hb' rfl
          have hc := hclosed (x - 1, y) hmem (1, 0) (by simp [directions])
            ⟨by simpa using hb, by
              show gridAt g (x - 1 + 1) (y + 0) = ch
              rw [show (x - 1 + 1 : Int) = x from by omega,
                show (y + 0 : Int) = y from by omega, hchv]
              exact huni x y hb⟩
          have : ((x - 1, y).1 + (1 : Int), (x - 1, y).2 + (0 : Int)) =
              (x, y) := by
            rw [Prod.ext_iff]
            constructor <;> simp <;> omega
          rwa [this] at hc
  have hset : st.1 = allCells g := by
    apply Finset.Subset.antisymm
    · intro m hm
      rw [hΔ1] at hm
      rcases Finset.mem_union.mp hm with hm1 | hm2
      · rw [Finset.mem_insert] at hm1
        rcases hm1 with hm1 | hm1
        · exact (mem_allCells g m).mpr (hm1 ▸ hp₀b)
        · exact absurd hm1 (Finset.not_mem_empty m)
      · exact (mem_allCells g m).mpr
          ((hΔ4 m (List.mem_toFinset.mp hm2)).2.1)
    · intro m hm
      have hb := (mem_allCells g m).mp hm
      have := hall _ m.1 m.2 hb rfl
      rwa [Prod.mk.eta] at this
  have hstep : findRegions g =
      findRegionsAux g (bfsFuel g) rest st.1 [⟨st.2.1, ch⟩] := by
    rw [findRegions, findRegionsWith, hrm]
    simp only [findRegionsAux, if_neg (Finset.not_mem_empty p₀)]
    rfl
  have hrest : findRegionsAux g (bfsFuel g) rest st.1 [⟨st.2.1, ch⟩] =
      [⟨st.2.1, ch⟩] := by
    refine findRegionsAux_all_visited g (bfsFuel g) rest st.1 _ (fun p hp => ?_)
    rw [hset]
    exact (mem_allCells g p).mpr
      ((mem_rowMajor g p).mp (hrm ▸ List.mem_cons_of_mem p₀ hp))
  refine ⟨st.2.1, ?_, ?_⟩
  · rw [hstep, hrest, hchv]
  · rw [hΔ2, ← hset, hΔ1]
    ext m
    simp [List.mem_toFinset, List.mem_append, or_comm]

/-- Claim C7: segmentation is total.  The unbounded BFS loop always terminates
within the `bfsFuel` bound (any larger fuel gives the same result), a grid
whose in-bounds cells carry pairwise distinct symbols segments into one
single-cell region per grid cell in scan order, and a uniform grid segments
into exactly one region covering the whole grid. -/
theorem segmentation_total (g : GridData) :
    (∀ F : ℕ, bfsFuel g ≤ F → findRegionsWith g F = findRegions g) ∧
    ((∀ c c' : Cell, inBounds g c.1 c.2 → inBounds g c'.1 c'.2 → c ≠ c' →
        gridAt g c.1 c.2 ≠ gridAt g c'.1 c'.2) →
      findRegions g =
        (rowMajor g).map (fun p => ⟨[p], gridAt g p.1 p.2⟩)) ∧
    (∀ c0 : Char, 0 < g.width → 0 < g.height →
      (∀ x y : Int, inBounds g x y → gridAt g x y = some c0) →
      ∃ cells, findRegions g = [⟨cells, some c0⟩] ∧
        cells.toFinset = allCells g) := by
  refine ⟨?_, ?_, fun c0 hw hh huni => findRegions_uniform g c0 hw hh huni⟩
  · intro F hF
    obtain ⟨k, hk⟩ := Nat.exists_eq_add_of_le hF
    rw [findRegions, findRegionsWith, findRegionsWith, hk]
    exact findRegionsAux_fuel_stable g k (rowMajor g) ∅ []
  · intro hdist
    rw [findRegions, findRegionsWith]
    have hres := findRegionsAux_distinct g hdist (rowMajor g) ∅ []
      (rowMajor_nodup g) (fun p hp => (mem_rowMajor g p).mp hp)
      (fun p _ => Finset.not_mem_empty p)
    rw [hres, List.nil_append]

/-- Witness for C7 at the 1×1 grid `"a"`. -/
theorem segmentation_total_witness :
    (bfsFuel (parseInput "a") ≤ 6 ∧
      findRegionsWith (parseInput "a") 6 = findRegions (parseInput "a")) ∧
    ((∀ c c' : Cell, inBounds (parseInput "a") c.1 c.2 →
        inBounds (parseInput "a") c'.1 c'.2 → c ≠ c' →
        gridAt (parseInput "a") c.1 c.2 ≠ gridAt (parseInput "a") c'.1 c'.2) ∧
      findRegions (parseInput "a") =
        (rowMajor (parseInput "a")).map
          (fun p => ⟨[p], gridAt (parseInput "a") p.1 p.2⟩)) ∧
    (0 < (parseInput "a").width ∧ 0 < (parseInput "a").height ∧
      (∀ x y : Int, inBounds (parseInput "a") x y →
        gridAt (parseInput "a") x y = some 'a') ∧
      ∃ cells, findRegions (parseInput "a") = [⟨cells, some 'a'⟩] ∧
        cells.toFinset = allCells (parseInput "a")) := by
  have hcell : ∀ c : Cell, inBounds (parseInput "a") c.1 c.2 →
      c = ((0 : Int), (0 : Int)) := by
    intro c hb
    obtain ⟨cx, cy⟩ := c
    obtain ⟨h1, h2, h3, h4⟩ := hb
    have hw : (parseInput "a").width = 1 := by decide
    have hh : (parseInput "a").height = 1 := by decide
    rw [hw] at h2
    rw [hh] at h4
    rw [Prod.mk.injEq]
    constructor <;> omega
  have hdist : ∀ c c' : Cell, inBounds (parseInput "a") c.1 c.2 →
      inBounds (parseInput "a") c'.1 c'.2 → c ≠ c' →
      gridAt (parseInput "a") c.1 c.2 ≠ gridAt (parseInput "a") c'.1 c'.2 := by
    intro c c' hb hb' hne
    exact absurd ((hcell c hb).trans (hcell c' hb').symm) hne
  have huni : ∀ x y : Int, inBounds (parseInput "a") x y →
      gridAt (parseInput "a") x y = some 'a' := by
    intro x y hb
    have hxy := hcell (x, y) hb
    rw [Prod.mk.injEq] at hxy
    rw [hxy.1, hxy.2]
    decide
  exact ⟨⟨by decide, (segmentation_total (parseInput "a")).1 6 (by decide)⟩,
    ⟨hdist, (segmentation_total (parseInput "a")).2.1 hdist⟩,
    ⟨by decide, by decide, huni,
      (segmentation_total (parseInput "a")).2.2 'a' (by decide) (by decide)
        huni⟩⟩

/-! ### Rectangles: membership, cardinality and edge sets -/

theorem mem_rectF (x0 y0 : Int) (w h : ℕ) (a : Cell) :
    a ∈ rectF x0 y0 w h ↔
      x0 ≤ a.1 ∧ a.1 < x0 + w ∧ y0 ≤ a.2 ∧ a.2 < y0 + h := by
  constructor
  · intro hm
    obtain ⟨⟨i, j⟩, hij, ha⟩ := Finset.mem_image.mp hm
    rw [Finset.mem_product, Finset.mem_range, Finset.mem_range] at hij
    refine ⟨?_, ?_, ?_, ?_⟩ <;> rw [← ha] <;> simp <;> omega
  · intro hb
    refine Finset.mem_image.mpr ⟨((a.1 - x0).toNat, (a.2 - y0).toNat), ?_, ?_⟩
    · rw [Finset.mem_product, Finset.mem_range, Finset.mem_range]
      omega
    · rw [Prod.ext_iff]
      constructor <;> simp <;> omega

theorem mem_rectCells (x0 y0 : Int) (w h : ℕ) (p : Cell) :
    p ∈ rectCells x0 y0 w h ↔
      x0 ≤ p.1 ∧ p.1 < x0 + w ∧ y0 ≤ p.2 ∧ p.2 < y0 + h := by
  rw [rectCells, List.mem_flatMap]
  constructor
  · rintro ⟨i, hi, hp⟩
    rw [List.mem_map] at hp
    obtain ⟨j, hj, hpe⟩ := hp
    rw [List.mem_range] at hi
    rw [List.mem_range] at hj
    refine ⟨?_, ?_, ?_, ?_⟩ <;> rw [← hpe] <;> simp <;> omega
  · intro hb
    refine ⟨(p.1 - x0).toNat, ?_, ?_⟩
    · rw [List.mem_range]
      omega
    · rw [List.mem_map]
      refine ⟨(p.2 - y0).toNat, ?_, ?_⟩
      · rw [List.mem_range]
        omega
      · rw [Prod.ext_iff]
        constructor <;> simp <;> omega

theorem rectCells_toFinset (x0 y0 : Int) (w h : ℕ) :
    (rectCells x0 y0 w h).toFinset = rectF x0 y0 w h := by
  ext a
  rw [List.mem_toFinset, mem_rectCells, mem_rectF]

theorem rectCells_nodup (x0 y0 : Int) (w h : ℕ) :
    (rectCells x0 y0 w h).Nodup := by
  rw [rectCells, List.nodup_flatMap]
  constructor
  · intro i _
    refine (List.nodup_range _).map ?_
    intro a b hab
    rw [Prod.mk.injEq] at hab
    omega
  · rw [List.pairwise_iff_forall_sublist]
    intro i i' hsub
    have hne : i ≠ i' := by
      intro hc
      subst hc
      exact absurd (List.Sublist.nodup hsub (List.nodup_range _)) (by simp)
    rw [Function.onFun, List.disjoint_left]
    intro p hp hp'
    rw [List.mem_map] at hp hp'
    obtain ⟨j, _, hj⟩ := hp
    obtain ⟨j', _, hj'⟩ := hp'
    rw [← hj', Prod.mk.injEq] at hj
    exact hne (by omega)

theorem rectF_card (x0 y0 : Int) (w h : ℕ) :
    (rectF x0 y0 w h).card = w * h := by
  rw [rectF, Finset.card_image_of_injective, Finset.card_product,
    Finset.card_range, Finset.card_range]
  intro a b hab
  rw [Prod.mk.injEq] at hab
  rw [Prod.ext_iff]
  omega

theorem leftEdges_toFinset (r : Region) :
    (leftEdges r).toFinset =
      r.cells.toFinset.filter (fun c => (c.1 - 1, c.2) ∉ r.cells.toFinset) := by
  rw [leftEdges, List.toFinset_filter]
  refine Finset.filter_congr (fun c _ => ?_)
  rw [decide_eq_true_eq, List.mem_toFinset]

theorem rightEdges_toFinset (r : Region) :
    (rightEdges r).toFinset =
      r.cells.toFinset.filter (fun c => (c.1 + 1, c.2) ∉ r.cells.toFinset) := by
  rw [rightEdges, List.toFinset_filter]
  refine Finset.filter_congr (fun c _ => ?_)
  rw [decide_eq_true_eq, List.mem_toFinset]

theorem topEdges_toFinset (r : Region) :
    (topEdges r).toFinset =
      r.cells.toFinset.filter (fun c => (c.1, c.2 - 1) ∉ r.cells.toFinset) := by
  rw [topEdges, List.toFinset_filter]
  refine Finset.filter_congr (fun c _ => ?_)
  rw [decide_eq_true_eq, List.mem_toFinset]

theorem bottomEdges_toFinset (r : Region) :
    (bottomEdges r).toFinset =
      r.cells.toFinset.filter (fun c => (c.1, c.2 + 1) ∉ r.cells.toFinset) := by
  rw [bottomEdges, List.toFinset_filter]
  refine Finset.filter_congr (fun c _ => ?_)
  rw [decide_eq_true_eq, List.mem_toFinset]

theorem vert_chain (s : Finset Cell) (x0 ylo yhi : Int)
    (hsub : ∀ y : Int, ylo ≤ y → y < yhi → ((x0, y) : Cell) ∈ s) :
    ∀ k : ℕ, ∀ y z : Int, ylo ≤ y → y < yhi → ylo ≤ z → z < yhi →
      y ≤ z → (z - y).toNat = k →
      ∀ (hy : ((x0, y) : Cell) ∈ s) (hz : ((x0, z) : Cell) ∈ s),
      Relation.EqvGen (fun a b : {c // c ∈ s} => vertAdjacent a.1 b.1)
        ⟨(x0, y), hy⟩ ⟨(x0, z), hz⟩ := by
  intro k
  induction k with
  | zero =>
    intro y z hy1 hy2 hz1 hz2 hyz hk hy hz
    have hyz' : y = z := by omega
    subst hyz'
    exact Relation.EqvGen.refl _
  | succ n ih =>
    intro y z hy1 hy2 hz1 hz2 hyz hk hy hz
    have hz1' : ylo ≤ z - 1 := by omega
    have hz2' : z - 1 < yhi := by omega
    have hmem : ((x0, z - 1) : Cell) ∈ s := hsub _ hz1' hz2'
    have h1 := ih y (z - 1) hy1 hy2 hz1' hz2' (by omega) (by omega) hy hmem
    refine Relation.EqvGen.trans _ _ _ h1 ?_
    refine Relation.EqvGen.rel _ _ ?_
    show vertAdjacent (x0, z - 1) (x0, z)
    exact ⟨rfl, Or.inr (by omega)⟩

theorem vert_chain_connect (s : Finset Cell) (x0 ylo yhi : Int)
    (hsub : ∀ y : Int, ylo ≤ y → y < yhi → ((x0, y) : Cell) ∈ s)
    (y z : Int) (hy1 : ylo ≤ y) (hy2 : y < yhi) (hz1 : ylo ≤ z)
    (hz2 : z < yhi) (hy : ((x0, y) : Cell) ∈ s) (hz : ((x0, z) : Cell) ∈ s) :
    Relation.EqvGen (fun a b : {c // c ∈ s} => vertAdjacent a.1 b.1)
      ⟨(x0, y), hy⟩ ⟨(x0, z), hz⟩ := by
  rcases le_total y z with hle | hle
  · exact vert_chain s x0 ylo yhi hsub _ y z hy1 hy2 hz1 hz2 hle rfl hy hz
  · exact Relation.EqvGen.symm _ _
      (vert_chain s x0 ylo yhi hsub _ z y hz1 hz2 hy1 hy2 hle rfl hz hy)

theorem horiz_chain (s : Finset Cell) (y0 xlo xhi : Int)
    (hsub : ∀ x : Int, xlo ≤ x → x < xhi → ((x, y0) : Cell) ∈ s) :
    ∀ k : ℕ, ∀ x z : Int, xlo ≤ x → x < xhi → xlo ≤ z → z < xhi →
      x ≤ z → (z - x).toNat = k →
      ∀ (hx : ((x, y0) : Cell) ∈ s) (hz : ((z, y0) : Cell) ∈ s),
      Relation.EqvGen (fun a b : {c // c ∈ s} => horizAdjacent a.1 b.1)
        ⟨(x, y0), hx⟩ ⟨(z, y0), hz⟩ := by
  intro k
  induction k with
  | zero =>
    intro x z hx1 hx2 hz1 hz2 hxz hk hx hz
    have hxz' : x = z := by omega
    subst hxz'
    exact Relation.EqvGen.refl _
  | succ n ih =>
    intro x z hx1 hx2 hz1 hz2 hxz hk hx hz
    have hz1' : xlo ≤ z - 1 := by omega
    have hz2' : z - 1 < xhi := by omega
    have hmem : ((z - 1, y0) : Cell) ∈ s := hsub _ hz1' hz2'
    have h1 := ih x (z - 1) hx1 hx2 hz1' hz2' (by omega) (by omega) hx hmem
    refine Relation.EqvGen.trans _ _ _ h1 ?_
    refine Relation.EqvGen.rel _ _ ?_
    show horizAdjacent (z - 1, y0) (z, y0)
    exact ⟨rfl, Or.inr (by omega)⟩

theorem horiz_chain_connect (s : Finset Cell) (y0 xlo xhi : Int)
    (hsub : ∀ x : Int, xlo ≤ x → x < xhi → ((x, y0) : Cell) ∈ s)
    (x z : Int) (hx1 : xlo ≤ x) (hx2 : x < xhi) (hz1 : xlo ≤ z)
    (hz2 : z < xhi) (hx : ((x, y0) : Cell) ∈ s) (hz : ((z, y0) : Cell) ∈ s) :
    Relation.EqvGen (fun a b : {c // c ∈ s} => horizAdjacent a.1 b.1)
      ⟨(x, y0), hx⟩ ⟨(z, y0), hz⟩ := by
  rcases le_total x z with hle | hle
  · exact horiz_chain s y0 xlo xhi hsub _ x z hx1 hx2 hz1 hz2 hle rfl hx hz
  · exact Relation.EqvGen.symm _ _
      (horiz_chain s y0 xlo xhi hsub _ z x hz1 hz2 hx1 hx2 hle rfl hz hx)

theorem numComponents_classify {β : Type} [DecidableEq β] (s : Finset Cell)
    (adj : Cell → Cell → Prop) (φ : Cell → β)
    (hadj : ∀ u v : Cell, u ∈ s → v ∈ s → adj u v → φ u = φ v)
    (hconn : ∀ u v : Cell, ∀ (hu : u ∈ s) (hv : v ∈ s), φ u = φ v →
      Relation.EqvGen (fun a b : {c // c ∈ s} => adj a.1 b.1)
        ⟨u, hu⟩ ⟨v, hv⟩) :
    numComponents s adj = (s.image φ).card := by
  refine numComponents_eq_image_card s adj φ (fun x y => ?_)
  constructor
  · intro hxy
    have hxy' : Relation.EqvGen
        (fun a b : {c // c ∈ s} => adj a.1 b.1) x y := hxy
    clear hxy
    induction hxy' with
    | rel a b hab => exact hadj a.1 b.1 a.2 b.2 hab
    | refl a => rfl
    | symm a b _ ih => exact ih.symm
    | trans a b c _ _ ih1 ih2 => exact ih1.trans ih2
  · intro hphi
    exact hconn x.1 y.1 x.2 y.2 hphi

theorem rectF_filter_left (x0 y0 : Int) (w h : ℕ) :
    (rectF x0 y0 w h).filter (fun a => (a.1 - 1, a.2) ∈ rectF x0 y0 w h) =
      rectF (x0 + 1) y0 (w - 1) h := by
  ext a
  simp only [Finset.mem_filter, mem_rectF]
  omega

theorem rectF_filter_right (x0 y0 : Int) (w h : ℕ) :
    (rectF x0 y0 w h).filter (fun a => (a.1 + 1, a.2) ∈ rectF x0 y0 w h) =
      rectF x0 y0 (w - 1) h := by
  ext a
  simp only [Finset.mem_filter, mem_rectF]
  omega

theorem rectF_filter_top (x0 y0 : Int) (w h : ℕ) :
    (rectF x0 y0 w h).filter (fun a => (a.1, a.2 - 1) ∈ rectF x0 y0 w h) =
      rectF x0 (y0 + 1) w (h - 1) := by
  ext a
  simp only [Finset.mem_filter, mem_rectF]
  omega

theorem rectF_filter_bottom (x0 y0 : Int) (w h : ℕ) :
    (rectF x0 y0 w h).filter (fun a => (a.1, a.2 + 1) ∈ rectF x0 y0 w h) =
      rectF x0 y0 w (h - 1) := by
  ext a
  simp only [Finset.mem_filter, mem_rectF]
  omega

theorem numComponents_col_one (x0 y0 : Int) (h : ℕ) (hpos : 1 ≤ h) :
    numComponents (rectF x0 y0 1 h) vertAdjacent = 1 := by
  have hsub : ∀ y : Int, y0 ≤ y → y < y0 + (h : Int) →
      ((x0, y) : Cell) ∈ rectF x0 y0 1 h := by
    intro y h1 h2
    rw [mem_rectF]
    refine ⟨le_refl _, ?_, h1, h2⟩
    simp
  have hcount := numComponents_classify (rectF x0 y0 1 h) vertAdjacent
    (fun _ => (0 : ℕ)) (fun u v _ _ _ => rfl) ?_
  · have hne : (rectF x0 y0 1 h).Nonempty := by
      rw [← Finset.card_pos, rectF_card]
      omega
    rw [hcount, Finset.image_const hne, Finset.card_singleton]
  · intro u v hu hv _
    obtain ⟨ux, uy⟩ := u
    obtain ⟨vx, vy⟩ := v
    have hub := (mem_rectF x0 y0 1 h (ux, uy)).mp hu
    have hvb := (mem_rectF x0 y0 1 h (vx, vy)).mp hv
    simp only at hub hvb
    have hux : x0 = ux := by omega
    have hvx : x0 = vx := by omega
    subst hux
    subst hvx
    exact vert_chain_connect (rectF x0 y0 1 h) x0 y0 (y0 + h) hsub uy vy
      (by omega) (by omega) (by omega) (by omega) hu hv

theorem numComponents_row_one (x0 y0 : Int) (w : ℕ) (hpos : 1 ≤ w) :
    numComponents (rectF x0 y0 w 1) horizAdjacent = 1 := by
  have hsub : ∀ x : Int, x0 ≤ x → x < x0 + (w : Int) →
      ((x, y0) : Cell) ∈ rectF x0 y0 w 1 := by
    intro x h1 h2
    rw [mem_rectF]
    refine ⟨h1, h2, le_refl _, ?_⟩
    simp
  have hcount := numComponents_classify (rectF x0 y0 w 1) horizAdjacent
    (fun _ => (0 : ℕ)) (fun u v _ _ _ => rfl) ?_
  · have hne : (rectF x0 y0 w 1).Nonempty := by
      rw [← Finset.card_pos, rectF_card]
      omega
    rw [hcount, Finset.image_const hne, Finset.card_singleton]
  · intro u v hu hv _
    obtain ⟨ux, uy⟩ := u
    obtain ⟨vx, vy⟩ := v
    have hub := (mem_rectF x0 y0 w 1 (ux, uy)).mp hu
    have hvb := (mem_rectF x0 y0 w 1 (vx, vy)).mp hv
    simp only at hub hvb
    have huy : y0 = uy := by omega
    have hvy : y0 = vy := by omega
    subst huy
    subst hvy
    exact horiz_chain_connect (rectF x0 y0 w 1) y0 x0 (x0 + w) hsub ux vx
      (by omega) (by omega) (by omega) (by omega) hu hv

theorem rectF_edge_left (x0 y0 : Int) (w h : ℕ) (hw : 1 ≤ w) :
    (rectF x0 y0 w h).filter (fun a => (a.1 - 1, a.2) ∉ rectF x0 y0 w h) =
      rectF x0 y0 1 h := by
  ext a
  simp only [Finset.mem_filter, mem_rectF]
  omega

theorem rectF_edge_right (x0 y0 : Int) (w h : ℕ) (hw : 1 ≤ w) :
    (rectF x0 y0 w h).filter (fun a => (a.1 + 1, a.2) ∉ rectF x0 y0 w h) =
      rectF (x0 + w - 1) y0 1 h := by
  ext a
  simp only [Finset.mem_filter, mem_rectF]
  omega

theorem rectF_edge_top (x0 y0 : Int) (w h : ℕ) (hh : 1 ≤ h) :
    (rectF x0 y0 w h).filter (fun a => (a.1, a.2 - 1) ∉ rectF x0 y0 w h) =
      rectF x0 y0 w 1 := by
  ext a
  simp only [Finset.mem_filter, mem_rectF]
  omega

theorem rectF_edge_bottom (x0 y0 : Int) (w h : ℕ) (hh : 1 ≤ h) :
    (rectF x0 y0 w h).filter (fun a => (a.1, a.2 + 1) ∉ rectF x0 y0 w h) =
      rectF x0 (y0 + h - 1) w 1 := by
  ext a
  simp only [Finset.mem_filter, mem_rectF]
  omega

/-- Claim C6: for every fully rectangular region of width `w` and height `h`
(its cell list is a permutation of a `w × h` axis-aligned rectangle lying
inside the grid), the computed perimeter is `2*(w+h)` and the computed side
count is exactly 4. The `w = h = 1` instance is the single isolated cell,
with perimeter `2*(1+1) = 4` and sides 4. -/
theorem rectangle_region_measures (g : GridData) (r : Region) (x0 y0 : Int)
    (w h : ℕ) (hw : 1 ≤ w) (hh : 1 ≤ h)
    (hperm : r.cells.Perm (rectCells x0 y0 w h))
    (hx0 : 0 ≤ x0) (hx1 : x0 + (w : Int) ≤ (g.width : Int))
    (hy0 : 0 ≤ y0) (hy1 : y0 + (h : Int) ≤ (g.height : Int)) :
    computePerimeter g r = 2 * (w + h) ∧ computeSides r = 4 := by
  have hnd : r.cells.Nodup :=
    (List.Perm.nodup_iff hperm).mpr (rectCells_nodup x0 y0 w h)
  have hS : r.cells.toFinset = rectF x0 y0 w h := by
    rw [List.toFinset_eq_of_perm _ _ hperm]
    exact rectCells_toFinset x0 y0 w h
  have hin : ∀ c ∈ r.cells, inBounds g c.1 c.2 := by
    intro c hc
    have hb := (mem_rectCells x0 y0 w h c).mp (hperm.mem_iff.mp hc)
    exact ⟨by omega, by omega, by omega, by omega⟩
  have hlen : r.cells.length = w * h := by
    rw [hperm.length_eq,
      ← List.toFinset_card_of_nodup (rectCells_nodup x0 y0 w h),
      rectCells_toFinset, rectF_card]
  have hwh : w * h = (w - 1) * h + h := by
    have hw' : (w - 1) + 1 = w := by omega
    calc w * h = ((w - 1) + 1) * h := by rw [hw']
      _ = (w - 1) * h + h := by ring
  have hhw : w * h = w * (h - 1) + w := by
    have hh' : (h - 1) + 1 = h := by omega
    calc w * h = w * ((h - 1) + 1) := by rw [hh']
      _ = w * (h - 1) + w := by ring
  have hL := edge_length_split r.cells hnd (fun c => (c.1 - 1, c.2))
  have hR := edge_length_split r.cells hnd (fun c => (c.1 + 1, c.2))
  have hT := edge_length_split r.cells hnd (fun c => (c.1, c.2 - 1))
  have hB := edge_length_split r.cells hnd (fun c => (c.1, c.2 + 1))
  rw [hS, rectF_filter_left, rectF_card, hlen] at hL
  rw [hS, rectF_filter_right, rectF_card, hlen] at hR
  rw [hS, rectF_filter_top, rectF_card, hlen] at hT
  rw [hS, rectF_filter_bottom, rectF_card, hlen] at hB
  have eL : (leftEdges r).length + (w - 1) * h = w * h := hL
  have eR : (rightEdges r).length + (w - 1) * h = w * h := hR
  have eT : (topEdges r).length + w * (h - 1) = w * h := hT
  have eB : (bottomEdges r).length + w * (h - 1) = w * h := hB
  constructor
  · rw [perimeter_eq_edges g r hin]
    omega
  · rw [computeSides, groupEdgeSegments_eq_vert (leftEdges r),
      groupEdgeSegments_eq_vert (rightEdges r),
      groupEdgeSegments_eq_horiz (topEdges r),
      groupEdgeSegments_eq_horiz (bottomEdges r),
      leftEdges_toFinset, rightEdges_toFinset, topEdges_toFinset,
      bottomEdges_toFinset, hS,
      rectF_edge_left x0 y0 w h hw, rectF_edge_right x0 y0 w h hw,
      rectF_edge_top x0 y0 w h hh, rectF_edge_bottom x0 y0 w h hh,
      numComponents_col_one x0 y0 h hh,
      numComponents_col_one (x0 + w - 1) y0 h hh,
      numComponents_row_one x0 y0 w hw,
      numComponents_row_one x0 (y0 + h - 1) w hw]

theorem rectangle_region_measures_witness :
    computePerimeter (parseInput "a")
        ⟨[((0 : Int), (0 : Int))], some 'a'⟩ = 2 * (1 + 1) ∧
      computeSides ⟨[((0 : Int), (0 : Int))], some 'a'⟩ = 4 :=
  rectangle_region_measures (parseInput "a")
    ⟨[((0 : Int), (0 : Int))], some 'a'⟩ 0 0 1 1 (by decide) (by decide)
    (by decide) (by decide) (by decide) (by decide) (by decide)

/-! ### Component-count bounds and the U-shape family -/

theorem numComponents_le_card {α : Type} [DecidableEq α] (s : Finset α)
    (adj : α → α → Prop) : numComponents s adj ≤ s.card := by
  classical
  have hsur : Function.Surjective
      (Quotient.mk (adjSetoid s adj)) := fun q => Quotient.exists_rep q
  have h1 : numComponents s adj ≤ Nat.card {x // x ∈ s} :=
    Nat.card_le_card_of_surjective _ hsur
  rwa [Nat.card_eq_fintype_card, Fintype.card_coe] at h1

theorem numComponents_lt_card {α : Type} [DecidableEq α] (s : Finset α)
    (adj : α → α → Prop)
    (hex : ∃ a b, a ∈ s ∧ b ∈ s ∧ a ≠ b ∧ adj a b) :
    numComponents s adj < s.card := by
  classical
  obtain ⟨a, b, ha, hb, hne, hadj⟩ := hex
  haveI : Fintype (Quotient (adjSetoid s adj)) :=
    Fintype.ofSurjective (Quotient.mk (adjSetoid s adj))
      (fun q => Quotient.exists_rep q)
  have hlt : Fintype.card (Quotient (adjSetoid s adj)) <
      Fintype.card {x // x ∈ s} := by
    refine Fintype.card_lt_of_surjective_not_injective
      (Quotient.mk (adjSetoid s adj)) (fun q => Quotient.exists_rep q) ?_
    intro hinj
    have heq : (⟨a, ha⟩ : {x // x ∈ s}) = ⟨b, hb⟩ :=
      hinj (Quotient.sound (Relation.EqvGen.rel _ _ hadj))
    exact hne (congrArg Subtype.val heq)
  calc numComponents s adj
      = Fintype.card (Quotient (adjSetoid s adj)) := Nat.card_eq_fintype_card
    _ < Fintype.card {x // x ∈ s} := hlt
    _ = s.card := Fintype.card_coe s

theorem mem_uShapeCells (w h a1 a2 hN : ℕ) (c : Cell) :
    c ∈ uShapeCells w h a1 a2 hN ↔
      (0 ≤ c.1 ∧ c.1 < (w : Int) ∧ 0 ≤ c.2 ∧ c.2 < (h : Int) ∧
        ¬((a1 : Int) ≤ c.1 ∧ c.1 < (a2 : Int) ∧ c.2 < (hN : Int))) := by
  rw [uShapeCells, List.mem_filter, mem_rectCells, decide_eq_true_eq]
  constructor
  · rintro ⟨⟨b1, b2, b3, b4⟩, hb⟩
    exact ⟨b1, by omega, b3, by omega, hb⟩
  · rintro ⟨b1, b2, b3, b4, hb⟩
    exact ⟨⟨b1, by omega, b3, by omega⟩, hb⟩

theorem numComponents_two_cols (xA yA : Int) (hA : ℕ) (xB yB : Int)
    (hB : ℕ) (hApos : 1 ≤ hA) (hBpos : 1 ≤ hB) (hne : xA ≠ xB) :
    numComponents (rectF xA yA 1 hA ∪ rectF xB yB 1 hB) vertAdjacent = 2 := by
  have hsubA : ∀ y : Int, yA ≤ y → y < yA + (hA : Int) →
      ((xA, y) : Cell) ∈ rectF xA yA 1 hA ∪ rectF xB yB 1 hB := by
    intro y hy1 hy2
    refine Finset.mem_union_left _ ((mem_rectF xA yA 1 hA (xA, y)).mpr ?_)
    simp only []
    omega
  have hsubB : ∀ y : Int, yB ≤ y → y < yB + (hB : Int) →
      ((xB, y) : Cell) ∈ rectF xA yA 1 hA ∪ rectF xB yB 1 hB := by
    intro y hy1 hy2
    refine Finset.mem_union_right _ ((mem_rectF xB yB 1 hB (xB, y)).mpr ?_)
    simp only []
    omega
  have hadjp : ∀ u v : Cell,
      u ∈ rectF xA yA 1 hA ∪ rectF xB yB 1 hB →
      v ∈ rectF xA yA 1 hA ∪ rectF xB yB 1 hB →
      vertAdjacent u v →
      (if u.1 = xA then (0 : ℕ) else 1) =
        (if v.1 = xA then (0 : ℕ) else 1) := by
    intro u v _ _ hadj
    rw [hadj.1]
  have hconnp : ∀ u v : Cell,
      ∀ (hu : u ∈ rectF xA yA 1 hA ∪ rectF xB yB 1 hB)
        (hv : v ∈ rectF xA yA 1 hA ∪ rectF xB yB 1 hB),
      (if u.1 = xA then (0 : ℕ) else 1) =
        (if v.1 = xA then (0 : ℕ) else 1) →
      Relation.EqvGen
        (fun a b : {c // c ∈ rectF xA yA 1 hA ∪ rectF xB yB 1 hB} =>
          vertAdjacent a.1 b.1) ⟨u, hu⟩ ⟨v, hv⟩ := by
    intro u v hu hv hphi
    obtain ⟨ux, uy⟩ := u
    obtain ⟨vx, vy⟩ := v
    have hu' := hu
    have hv' := hv
    rw [Finset.mem_union, mem_rectF, mem_rectF] at hu' hv'
    simp only at hu' hv' hphi
    rcases hu' with hu1 | hu1 <;> rcases hv' with hv1 | hv1
    · have e1 : xA = ux := by omega
      have e2 : xA = vx := by omega
      subst e1
      subst e2
      exact vert_chain_connect _ xA yA (yA + hA) hsubA uy vy (by omega)
        (by omega) (by omega) (by omega) hu hv
    · exfalso
      rw [if_pos (by omega : ux = xA),
        if_neg (by omega : ¬ vx = xA)] at hphi
      omega
    · exfalso
      rw [if_neg (by omega : ¬ ux = xA),
        if_pos (by omega : vx = xA)] at hphi
      omega
    · have e1 : xB = ux := by omega
      have e2 : xB = vx := by omega
      subst e1
      subst e2
      exact vert_chain_connect _ xB yB (yB + hB) hsubB uy vy (by omega)
        (by omega) (by omega) (by omega) hu hv
  rw [numComponents_classify (rectF xA yA 1 hA ∪ rectF xB yB 1 hB)
    vertAdjacent (fun c => if c.1 = xA then (0 : ℕ) else 1) hadjp hconnp]
  have himg : (rectF xA yA 1 hA ∪ rectF xB yB 1 hB).image
      (fun c : Cell => if c.1 = xA then (0 : ℕ) else 1) = {0, 1} := by
    apply Finset.Subset.antisymm
    · intro b hb
      obtain ⟨c, _, hcb⟩ := Finset.mem_image.mp hb
      rw [← hcb]
      by_cases hc : c.1 = xA
      · simp [hc]
      · simp [hc]
    · intro b hb
      rcases Finset.mem_insert.mp hb with h0 | h1
      · subst h0
        refine Finset.mem_image.mpr ⟨(xA, yA), Finset.mem_union_left _
          ((mem_rectF xA yA 1 hA (xA, yA)).mpr ?_), ?_⟩
        · simp only []
          omega
        · simp
      · rw [Finset.mem_singleton] at h1
        subst h1
        refine Finset.mem_image.mpr ⟨(xB, yB), Finset.mem_union_right _
          ((mem_rectF xB yB 1 hB (xB, yB)).mpr ?_), ?_⟩
        · simp only []
          omega
        · simp only []
          rw [if_neg (Ne.symm hne)]
  rw [himg]
  rfl

theorem numComponents_three_rows_U (w h a1 a2 hN : ℕ)
    (h1 : 1 ≤ a1) (h2 : a1 + 1 ≤ a2) (h3 : a2 + 1 ≤ w) (h4 : 1 ≤ hN) :
    numComponents
      (rectF 0 0 a1 1 ∪ rectF (a2 : Int) 0 (w - a2) 1 ∪
        rectF (a1 : Int) (hN : Int) (a2 - a1) 1) horizAdjacent = 3 := by
  have hsubA : ∀ x : Int, 0 ≤ x → x < (0 : Int) + (a1 : Int) →
      ((x, (0 : Int)) : Cell) ∈ rectF 0 0 a1 1 ∪
        rectF (a2 : Int) 0 (w - a2) 1 ∪
        rectF (a1 : Int) (hN : Int) (a2 - a1) 1 := by
    intro x hx1 hx2
    refine Finset.mem_union_left _ (Finset.mem_union_left _
      ((mem_rectF 0 0 a1 1 (x, 0)).mpr ?_))
    simp only []
    omega
  have hsubB : ∀ x : Int, (a2 : Int) ≤ x → x < (a2 : Int) + ((w - a2 : ℕ) : Int) →
      ((x, (0 : Int)) : Cell) ∈ rectF 0 0 a1 1 ∪
        rectF (a2 : Int) 0 (w - a2) 1 ∪
        rectF (a1 : Int) (hN : Int) (a2 - a1) 1 := by
    intro x hx1 hx2
    refine Finset.mem_union_left _ (Finset.mem_union_right _
      ((mem_rectF (a2 : Int) 0 (w - a2) 1 (x, 0)).mpr ?_))
    simp only []
    omega
  have hsubC : ∀ x : Int, (a1 : Int) ≤ x → x < (a1 : Int) + ((a2 - a1 : ℕ) : Int) →
      ((x, (hN : Int)) : Cell) ∈ rectF 0 0 a1 1 ∪
        rectF (a2 : Int) 0 (w - a2) 1 ∪
        rectF (a1 : Int) (hN : Int) (a2 - a1) 1 := by
    intro x hx1 hx2
    refine Finset.mem_union_right _
      ((mem_rectF (a1 : Int) (hN : Int) (a2 - a1) 1 (x, (hN : Int))).mpr ?_)
    simp only []
    omega
  have hadjp : ∀ u v : Cell,
      u ∈ rectF 0 0 a1 1 ∪ rectF (a2 : Int) 0 (w - a2) 1 ∪
        rectF (a1 : Int) (hN : Int) (a2 - a1) 1 →
      v ∈ rectF 0 0 a1 1 ∪ rectF (a2 : Int) 0 (w - a2) 1 ∪
        rectF (a1 : Int) (hN : Int) (a2 - a1) 1 →
      horizAdjacent u v →
      (if u.2 = (hN : Int) then (2 : ℕ) else
        if u.1 < (a2 : Int) then 0 else 1) =
      (if v.2 = (hN : Int) then (2 : ℕ) else
        if v.1 < (a2 : Int) then 0 else 1) := by
    intro u v hu hv hadj
    obtain ⟨ux, uy⟩ := u
    obtain ⟨vx, vy⟩ := v
    rw [Finset.mem_union, Finset.mem_union, mem_rectF, mem_rectF,
      mem_rectF] at hu hv
    obtain ⟨hy, hx⟩ := hadj
    simp only at hu hv hy hx ⊢
    split_ifs <;> omega
  have hconnp : ∀ u v : Cell,
      ∀ (hu : u ∈ rectF 0 0 a1 1 ∪ rectF (a2 : Int) 0 (w - a2) 1 ∪
          rectF (a1 : Int) (hN : Int) (a2 - a1) 1)
        (hv : v ∈ rectF 0 0 a1 1 ∪ rectF (a2 : Int) 0 (w - a2) 1 ∪
          rectF (a1 : Int) (hN : Int) (a2 - a1) 1),
      (if u.2 = (hN : Int) then (2 : ℕ) else
        if u.1 < (a2 : Int) then 0 else 1) =
      (if v.2 = (hN : Int) then (2 : ℕ) else
        if v.1 < (a2 : Int) then 0 else 1) →
      Relation.EqvGen
        (fun a b : {c // c ∈ rectF 0 0 a1 1 ∪
            rectF (a2 : Int) 0 (w - a2) 1 ∪
            rectF (a1 : Int) (hN : Int) (a2 - a1) 1} =>
          horizAdjacent a.1 b.1) ⟨u, hu⟩ ⟨v, hv⟩ := by
    intro u v hu hv hphi
    obtain ⟨ux, uy⟩ := u
    obtain ⟨vx, vy⟩ := v
    have hu' := hu
    have hv' := hv
    rw [Finset.mem_union, Finset.mem_union, mem_rectF, mem_rectF,
      mem_rectF] at hu' hv'
    simp only at hu' hv' hphi
    rcases hu' with hu1 | hu1
    rotate_left
    · rcases hv' with hv1 | hv1
      rotate_left
      · -- both in row C
        have e1 : (hN : Int) = uy := by omega
        have e2 : (hN : Int) = vy := by omega
        subst e1
        subst e2
        exact horiz_chain_connect _ (hN : Int) (a1 : Int)
          ((a1 : Int) + ((a2 - a1 : ℕ) : Int)) hsubC ux vx (by omega)
          (by omega) (by omega) (by omega) hu hv
      · exfalso
        rcases hv1 with hv2 | hv2 <;>
          · rw [if_pos (by omega : uy = (hN : Int)),
              if_neg (by omega : ¬ vy = (hN : Int))] at hphi
            split_ifs at hphi <;> omega
    · rcases hv' with hv1 | hv1
      rotate_left
      · exfalso
        rcases hu1 with hu2 | hu2 <;>
          · rw [if_neg (by omega : ¬ uy = (hN : Int)),
              if_pos (by omega : vy = (hN : Int))] at hphi
            split_ifs at hphi <;> omega
      · rcases hu1 with hu2 | hu2 <;> rcases hv1 with hv2 | hv2
        · -- both in row A
          have e1 : (0 : Int) = uy := by omega
          have e2 : (0 : Int) = vy := by omega
          subst e1
          subst e2
          exact horiz_chain_connect _ (0 : Int) 0 ((0 : Int) + (a1 : Int))
            hsubA ux vx (by omega) (by omega) (by omega) (by omega) hu hv
        · exfalso
          rw [if_neg (by omega : ¬ uy = (hN : Int)),
            if_pos (by omega : ux < (a2 : Int)),
            if_neg (by omega : ¬ vy = (hN : Int)),
            if_neg (by omega : ¬ vx < (a2 : Int))] at hphi
          omega
        · exfalso
          rw [if_neg (by omega : ¬ uy = (hN : Int)),
            if_neg (by omega : ¬ ux < (a2 : Int)),
            if_neg (by omega : ¬ vy = (hN : Int)),
            if_pos (by omega : vx < (a2 : Int))] at hphi
          omega
        · -- both in row B
          have e1 : (0 : Int) = uy := by omega
          have e2 : (0 : Int) = vy := by omega
          subst e1
          subst e2
          exact horiz_chain_connect _ (0 : Int) (a2 : Int)
            ((a2 : Int) + ((w - a2 : ℕ) : Int)) hsubB ux vx (by omega)
            (by omega) (by omega) (by omega) hu hv
  rw [numComponents_classify
    (rectF 0 0 a1 1 ∪ rectF (a2 : Int) 0 (w - a2) 1 ∪
      rectF (a1 : Int) (hN : Int) (a2 - a1) 1) horizAdjacent
    (fun c => if c.2 = (hN : Int) then (2 : ℕ) else
      if c.1 < (a2 : Int) then 0 else 1) hadjp hconnp]
  have himg : (rectF 0 0 a1 1 ∪ rectF (a2 : Int) 0 (w - a2) 1 ∪
      rectF (a1 : Int) (hN : Int) (a2 - a1) 1).image
      (fun c : Cell => if c.2 = (hN : Int) then (2 : ℕ) else
        if c.1 < (a2 : Int) then 0 else 1) = {0, 1, 2} := by
    apply Finset.Subset.antisymm
    · intro b hb
      obtain ⟨c, _, hcb⟩ := Finset.mem_image.mp hb
      rw [← hcb]
      by_cases hc1 : c.2 = (hN : Int)
      · simp [hc1]
      · by_cases hc2 : c.1 < (a2 : Int)
        · simp [hc1, hc2]
        · simp [hc1, hc2]
    · intro b hb
      rcases Finset.mem_insert.mp hb with h0 | hb'
      · subst h0
        refine Finset.mem_image.mpr ⟨((0 : Int), (0 : Int)),
          Finset.mem_union_left _ (Finset.mem_union_left _
            ((mem_rectF 0 0 a1 1 (0, 0)).mpr ?_)), ?_⟩
        · simp only []
          omega
        · simp only []
          rw [if_neg (by omega : ¬ (0 : Int) = (hN : Int)),
            if_pos (by omega : (0 : Int) < (a2 : Int))]
      · rcases Finset.mem_insert.mp hb' with h0 | hb''
        · subst h0
          refine Finset.mem_image.mpr ⟨((a2 : Int), (0 : Int)),
            Finset.mem_union_left _ (Finset.mem_union_right _
              ((mem_rectF (a2 : Int) 0 (w - a2) 1 ((a2 : Int), 0)).mpr ?_)),
            ?_⟩
          · simp only []
            omega
          · simp only []
            rw [if_neg (by omega : ¬ (0 : Int) = (hN : Int)),
              if_neg (by omega : ¬ (a2 : Int) < (a2 : Int))]
        · rw [Finset.mem_singleton] at hb''
          subst hb''
          refine Finset.mem_image.mpr ⟨((a1 : Int), (hN : Int)),
            Finset.mem_union_right _
              ((mem_rectF (a1 : Int) (hN : Int) (a2 - a1) 1
                ((a1 : Int), (hN : Int))).mpr ?_), ?_⟩
          · simp only []
            omega
          · simp
  rw [himg]
  rfl

theorem uShape_leftE (w h a1 a2 hN : ℕ) (ch : Option Char)
    (h1 : 1 ≤ a1) (h2 : a1 + 1 ≤ a2) (h3 : a2 + 1 ≤ w) (h4 : 1 ≤ hN)
    (h5 : hN + 1 ≤ h) :
    (leftEdges ⟨uShapeCells w h a1 a2 hN, ch⟩).toFinset =
      rectF 0 0 1 h ∪ rectF (a2 : Int) 0 1 hN := by
  have hmem : ∀ c : Cell,
      c ∈ (Region.mk (uShapeCells w h a1 a2 hN) ch).cells.toFinset ↔
        (0 ≤ c.1 ∧ c.1 < (w : Int) ∧ 0 ≤ c.2 ∧ c.2 < (h : Int) ∧
          ¬((a1 : Int) ≤ c.1 ∧ c.1 < (a2 : Int) ∧ c.2 < (hN : Int))) := by
    intro c
    rw [List.mem_toFinset]
    exact mem_uShapeCells w h a1 a2 hN c
  rw [leftEdges_toFinset]
  ext c
  rw [Finset.mem_filter, Finset.mem_union, mem_rectF, mem_rectF,
    hmem c, hmem (c.1 - 1, c.2)]
  simp only []
  omega

theorem uShape_rightE (w h a1 a2 hN : ℕ) (ch : Option Char)
    (h1 : 1 ≤ a1) (h2 : a1 + 1 ≤ a2) (h3 : a2 + 1 ≤ w) (h4 : 1 ≤ hN)
    (h5 : hN + 1 ≤ h) :
    (rightEdges ⟨uShapeCells w h a1 a2 hN, ch⟩).toFinset =
      rectF ((w : Int) - 1) 0 1 h ∪ rectF ((a1 : Int) - 1) 0 1 hN := by
  have hmem : ∀ c : Cell,
      c ∈ (Region.mk (uShapeCells w h a1 a2 hN) ch).cells.toFinset ↔
        (0 ≤ c.1 ∧ c.1 < (w : Int) ∧ 0 ≤ c.2 ∧ c.2 < (h : Int) ∧
          ¬((a1 : Int) ≤ c.1 ∧ c.1 < (a2 : Int) ∧ c.2 < (hN : Int))) := by
    intro c
    rw [List.mem_toFinset]
    exact mem_uShapeCells w h a1 a2 hN c
  rw [rightEdges_toFinset]
  ext c
  rw [Finset.mem_filter, Finset.mem_union, mem_rectF, mem_rectF,
    hmem c, hmem (c.1 + 1, c.2)]
  simp only []
  omega

theorem uShape_topE (w h a1 a2 hN : ℕ) (ch : Option Char)
    (h1 : 1 ≤ a1) (h2 : a1 + 1 ≤ a2) (h3 : a2 + 1 ≤ w) (h4 : 1 ≤ hN)
    (h5 : hN + 1 ≤ h) :
    (topEdges ⟨uShapeCells w h a1 a2 hN, ch⟩).toFinset =
      rectF 0 0 a1 1 ∪ rectF (a2 : Int) 0 (w - a2) 1 ∪
        rectF (a1 : Int) (hN : Int) (a2 - a1) 1 := by
  have hmem : ∀ c : Cell,
      c ∈ (Region.mk (uShapeCells w h a1 a2 hN) ch).cells.toFinset ↔
        (0 ≤ c.1 ∧ c.1 < (w : Int) ∧ 0 ≤ c.2 ∧ c.2 < (h : Int) ∧
          ¬((a1 : Int) ≤ c.1 ∧ c.1 < (a2 : Int) ∧ c.2 < (hN : Int))) := by
    intro c
    rw [List.mem_toFinset]
    exact mem_uShapeCells w h a1 a2 hN c
  rw [topEdges_toFinset]
  ext c
  rw [Finset.mem_filter, Finset.mem_union, Finset.mem_union, mem_rectF,
    mem_rectF, mem_rectF, hmem c, hmem (c.1, c.2 - 1)]
  simp only []
  omega

theorem uShape_bottomE (w h a1 a2 hN : ℕ) (ch : Option Char)
    (h1 : 1 ≤ a1) (h2 : a1 + 1 ≤ a2) (h3 : a2 + 1 ≤ w) (h4 : 1 ≤ hN)
    (h5 : hN + 1 ≤ h) :
    (bottomEdges ⟨uShapeCells w h a1 a2 hN, ch⟩).toFinset =
      rectF 0 ((h : Int) - 1) w 1 := by
  have hmem : ∀ c : Cell,
      c ∈ (Region.mk (uShapeCells w h a1 a2 hN) ch).cells.toFinset ↔
        (0 ≤ c.1 ∧ c.1 < (w : Int) ∧ 0 ≤ c.2 ∧ c.2 < (h : Int) ∧
          ¬((a1 : Int) ≤ c.1 ∧ c.1 < (a2 : Int) ∧ c.2 < (hN : Int))) := by
    intro c
    rw [List.mem_toFinset]
    exact mem_uShapeCells w h a1 a2 hN c
  rw [bottomEdges_toFinset]
  ext c
  rw [Finset.mem_filter, mem_rectF, hmem c, hmem (c.1, c.2 + 1)]
  simp only []
  omega

theorem uShape_sides (w h a1 a2 hN : ℕ) (ch : Option Char)
    (h1 : 1 ≤ a1) (h2 : a1 + 1 ≤ a2) (h3 : a2 + 1 ≤ w) (h4 : 1 ≤ hN)
    (h5 : hN + 1 ≤ h) :
    computeSides ⟨uShapeCells w h a1 a2 hN, ch⟩ = 8 := by
  rw [computeSides,
    groupEdgeSegments_eq_vert (leftEdges ⟨uShapeCells w h a1 a2 hN, ch⟩),
    groupEdgeSegments_eq_vert (rightEdges ⟨uShapeCells w h a1 a2 hN, ch⟩),
    groupEdgeSegments_eq_horiz (topEdges ⟨uShapeCells w h a1 a2 hN, ch⟩),
    groupEdgeSegments_eq_horiz (bottomEdges ⟨uShapeCells w h a1 a2 hN, ch⟩),
    uShape_leftE w h a1 a2 hN ch h1 h2 h3 h4 h5,
    uShape_rightE w h a1 a2 hN ch h1 h2 h3 h4 h5,
    uShape_topE w h a1 a2 hN ch h1 h2 h3 h4 h5,
    uShape_bottomE w h a1 a2 hN ch h1 h2 h3 h4 h5,
    numComponents_two_cols 0 0 h (a2 : Int) 0 hN (by omega) (by omega)
      (by omega),
    numComponents_two_cols ((w : Int) - 1) 0 h ((a1 : Int) - 1) 0 hN
      (by omega) (by omega) (by omega),
    numComponents_three_rows_U w h a1 a2 hN h1 h2 h3 h4,
    numComponents_row_one 0 ((h : Int) - 1) w (by omega)]

/-- Claim C8: concave regions. (a) For every region produced by segmentation
in which some straight boundary run has length greater than 1 — i.e. some
orientation's boundary-cell set contains two cells adjacent along that
orientation's grouping axis — the computed side count is strictly less than
the computed perimeter. (b) The side count strictly exceeds 4 for shapes with
more than one convex/concave corner pair, exhibited on the whole U-shaped
family (a `w × h` rectangle with a notch `[a1, a2) × [0, hN)` cut from its
top edge, which has four concave corner pairs): every such region has exactly
8 sides, hence strictly more than 4. -/
theorem concave_region_sides (g : GridData) :
    (∀ r ∈ findRegions g, ∀ a b : Cell,
      ((a ∈ leftEdges r ∧ b ∈ leftEdges r ∧ vertAdjacent a b) ∨
       (a ∈ rightEdges r ∧ b ∈ rightEdges r ∧ vertAdjacent a b) ∨
       (a ∈ topEdges r ∧ b ∈ topEdges r ∧ horizAdjacent a b) ∨
       (a ∈ bottomEdges r ∧ b ∈ bottomEdges r ∧ horizAdjacent a b)) →
      computeSides r < computePerimeter g r) ∧
    (∀ (w h a1 a2 hN : ℕ) (ch : Option Char),
      1 ≤ a1 → a1 + 1 ≤ a2 → a2 + 1 ≤ w → 1 ≤ hN → hN + 1 ≤ h →
      computeSides ⟨uShapeCells w h a1 a2 hN, ch⟩ = 8 ∧
      4 < computeSides ⟨uShapeCells w h a1 a2 hN, ch⟩) := by
  constructor
  · intro r hr a b hcase
    obtain ⟨hne, hnd, hprops⟩ := findRegions_invariant g r hr
    have hin : ∀ c ∈ r.cells, inBounds g c.1 c.2 :=
      fun c hc => (hprops c hc).1
    have hperim := perimeter_eq_edges g r hin
    have hsides : computeSides r =
        numComponents (leftEdges r).toFinset vertAdjacent +
        numComponents (rightEdges r).toFinset vertAdjacent +
        numComponents (topEdges r).toFinset horizAdjacent +
        numComponents (bottomEdges r).toFinset horizAdjacent := by
      rw [computeSides, groupEdgeSegments_eq_vert (leftEdges r),
        groupEdgeSegments_eq_vert (rightEdges r),
        groupEdgeSegments_eq_horiz (topEdges r),
        groupEdgeSegments_eq_horiz (bottomEdges r)]
    have hLc : (leftEdges r).length = (leftEdges r).toFinset.card :=
      (List.toFinset_card_of_nodup (hnd.filter _)).symm
    have hRc : (rightEdges r).length = (rightEdges r).toFinset.card :=
      (List.toFinset_card_of_nodup (hnd.filter _)).symm
    have hTc : (topEdges r).length = (topEdges r).toFinset.card :=
      (List.toFinset_card_of_nodup (hnd.filter _)).symm
    have hBc : (bottomEdges r).length = (bottomEdges r).toFinset.card :=
      (List.toFinset_card_of_nodup (hnd.filter _)).symm
    have leL : numComponents (leftEdges r).toFinset vertAdjacent ≤
        (leftEdges r).toFinset.card := numComponents_le_card _ _
    have leR : numComponents (rightEdges r).toFinset vertAdjacent ≤
        (rightEdges r).toFinset.card := numComponents_le_card _ _
    have leT : numComponents (topEdges r).toFinset horizAdjacent ≤
        (topEdges r).toFinset.card := numComponents_le_card _ _
    have leB : numComponents (bottomEdges r).toFinset horizAdjacent ≤
        (bottomEdges r).toFinset.card := numComponents_le_card _ _
    rcases hcase with ⟨ha, hb, hadj⟩ | ⟨ha, hb, hadj⟩ | ⟨ha, hb, hadj⟩ |
      ⟨ha, hb, hadj⟩
    · have hab : a ≠ b := by
        intro hc
        subst hc
        rcases hadj with ⟨_, hy | hy⟩ <;> omega
      have hlt : numComponents (leftEdges r).toFinset vertAdjacent <
          (leftEdges r).toFinset.card :=
        numComponents_lt_card _ _ ⟨a, b, List.mem_toFinset.mpr ha,
          List.mem_toFinset.mpr hb, hab, hadj⟩
      omega
    · have hab : a ≠ b := by
        intro hc
        subst hc
        rcases hadj with ⟨_, hy | hy⟩ <;> omega
      have hlt : numComponents (rightEdges r).toFinset vertAdjacent <
          (rightEdges r).toFinset.card :=
        numComponents_lt_card _ _ ⟨a, b, List.mem_toFinset.mpr ha,
          List.mem_toFinset.mpr hb, hab, hadj⟩
      omega
    · have hab : a ≠ b := by
        intro hc
        subst hc
        rcases hadj with ⟨_, hy | hy⟩ <;> omega
      have hlt : numComponents (topEdges r).toFinset horizAdjacent <
          (topEdges r).toFinset.card :=
        numComponents_lt_card _ _ ⟨a, b, List.mem_toFinset.mpr ha,
          List.mem_toFinset.mpr hb, hab, hadj⟩
      omega
    · have hab : a ≠ b := by
        intro hc
        subst hc
        rcases hadj with ⟨_, hy | hy⟩ <;> omega
      have hlt : numComponents (bottomEdges r).toFinset horizAdjacent <
          (bottomEdges r).toFinset.card :=
        numComponents_lt_card _ _ ⟨a, b, List.mem_toFinset.mpr ha,
          List.mem_toFinset.mpr hb, hab, hadj⟩
      omega
  · intro w h a1 a2 hN ch h1 h2 h3 h4 h5
    have h8 := uShape_sides w h a1 a2 hN ch h1 h2 h3 h4 h5
    exact ⟨h8, by omega⟩

theorem concave_region_sides_witness :
    (computeSides ⟨[((0 : Int), (0 : Int)), ((1 : Int), (0 : Int)),
        ((0 : Int), (1 : Int))], some 'a'⟩ <
      computePerimeter (parseInput "aa\nab")
        ⟨[((0 : Int), (0 : Int)), ((1 : Int), (0 : Int)),
          ((0 : Int), (1 : Int))], some 'a'⟩) ∧
    computeSides ⟨uShapeCells 3 2 1 2 1, some 'u'⟩ = 8 ∧
    4 < computeSides ⟨uShapeCells 3 2 1 2 1, some 'u'⟩ := by
  refine ⟨(concave_region_sides (parseInput "aa\nab")).1
    ⟨[((0 : Int), (0 : Int)), ((1 : Int), (0 : Int)),
      ((0 : Int), (1 : Int))], some 'a'⟩ (by decide)
    ((0 : Int), (0 : Int)) ((0 : Int), (1 : Int))
    (Or.inl ⟨by decide, by decide, by decide⟩), ?_⟩
  exact (concave_region_sides (parseInput "aa\nab")).2 3 2 1 2 1 (some 'u')
    (by decide) (by decide) (by decide) (by decide) (by decide)
